import Mathlib

/-!
# SineWaveVoice (Source/AudioSynthesiserDemo.h)

A shallow embedding of the sine-wave synthesiser voice: `startNote`, `stopNote`
and `renderNextBlock`, with arithmetic taken in an arbitrary linearly ordered
field `R` (the reals in the closed statements), so that the conversions between
`float` and `double` are the identity and `0.15`, `0.99`, `0.005` are the fractions
`15 / 100`, `99 / 100`, `5 / 1000`.  The numeric library primitives the voice calls
(`std::sin`, `MathConstants::pi`, `MidiMessage::getMidiNoteInHertz`) are parameters
collected in `MathEnv`; the envelope class `ADSR` and the assignment state of the
voice base class are modelled from the specification.
-/

namespace WaivySampler

/-- Numeric library primitives called by the voice; they are not defined in the
repository, so the embedding takes them as parameters. -/
structure MathEnv (R : Type) where
  /-- The function `std::sin`. -/
  sin : R → R
  /-- The constant `MathConstants<double>::pi`. -/
  pi : R
  /-- The function `MidiMessage::getMidiNoteInHertz`. -/
  getMidiNoteInHertz : Int → R

/-- The constant `MathConstants<double>::twoPi`. -/
def MathEnv.twoPi {R : Type} [LinearOrderedField R] (env : MathEnv R) : R :=
  2 * env.pi

/-! ## The output buffer -/

/-- An `AudioBuffer<float>`: a number of channels and, per channel, its samples.
Sample positions are `int` in the source; the caller keeps every span it passes
inside the buffer, so no length is carried. -/
structure AudioBuffer (R : Type) where
  numChannels : Nat
  data : Nat → Int → R

/-- The call `outputBuffer.addSample (destChannel, destSample, value)`. -/
def AudioBuffer.addSample {R : Type} [LinearOrderedField R]
    (b : AudioBuffer R) (destChannel : Nat) (destSample : Int) (value : R) : AudioBuffer R :=
  { b with data := fun c i =>
      if c = destChannel ∧ i = destSample then b.data c i + value else b.data c i }

/-- The loop `for (auto i = outputBuffer.getNumChannels(); --i >= 0;)
outputBuffer.addSample (i, startSample, currentSample);` entered with `i`. -/
def addToChannels {R : Type} [LinearOrderedField R] :
    Nat → AudioBuffer R → Int → R → AudioBuffer R
  | 0, b, _, _ => b
  | i + 1, b, startSample, currentSample =>
      addToChannels i (b.addSample i startSample currentSample) startSample currentSample

/-- Multiply one sample position of every channel by a gain. -/
def AudioBuffer.scaleSample {R : Type} [LinearOrderedField R]
    (b : AudioBuffer R) (destSample : Int) (gain : R) : AudioBuffer R :=
  { b with data := fun c i =>
      if c < b.numChannels ∧ i = destSample then b.data c i * gain else b.data c i }

/-! ## The envelope generator -/

/-- The phases of the envelope state machine. -/
inductive EnvelopePhase where
  | idle
  | attack
  | decay
  | sustain
  | release
  deriving DecidableEq, Repr

/-- The type `ADSR::Parameters`: the four fields the voice assigns. -/
structure ADSRParameters (R : Type) where
  attack : R
  decay : R
  sustain : R
  release : R

/-- Modelled from the spec: the envelope generator (the class `ADSR` comes from the
audio library and is not part of the repository).  §3 gives the state
(`phase`, `currentAmplitude`, `parameters`); §4.4 gives the ramps, whose
amplitude span is fixed when a phase is entered (`rampSpan`) and whose rate is
that span divided by `phaseSeconds * sampleRate`. -/
structure ADSR (R : Type) where
  phase : EnvelopePhase
  currentAmplitude : R
  parameters : ADSRParameters R
  sampleRate : R
  rampSpan : R

namespace ADSR

variable {R : Type} [LinearOrderedField R]

/-- Modelled from the spec: the duration of the ramp of the current phase (§4.4). -/
def phaseSeconds (a : ADSR R) : R :=
  match a.phase with
  | .attack => a.parameters.attack
  | .decay => a.parameters.decay
  | .release => a.parameters.release
  | _ => 0

/-- Modelled from the spec: "Ramp rate per phase = Δamplitude / (phaseSeconds *
sampleRate) ... zero-duration phases complete within one sample" (§4.4). -/
def rate (a : ADSR R) : R :=
  if 0 < a.phaseSeconds * a.sampleRate then a.rampSpan / (a.phaseSeconds * a.sampleRate)
  else a.rampSpan

/-- Modelled from the spec: `setParameters` installs a parameter set; the ramp in
progress keeps its start and end amplitude and only its rate follows (§4.4). -/
def setParameters (a : ADSR R) (p : ADSRParameters R) : ADSR R :=
  { a with parameters := p }

/-- Modelled from the spec: "`noteOn()` forces state to Attack from any state, using
the amplitude already present as the ramp's starting point" (§4.4). -/
def noteOn (a : ADSR R) : ADSR R :=
  { a with phase := .attack, rampSpan := 1 - a.currentAmplitude }

/-- Modelled from the spec: "`noteOff()` forces state to Release from any non-Idle
state, ramping from the current amplitude to 0 over `releaseSeconds`" (§4.4). -/
def noteOff (a : ADSR R) : ADSR R :=
  if a.phase = .idle then a
  else { a with phase := .release, rampSpan := a.currentAmplitude }

/-- Modelled from the spec: one sample tick of the envelope (§4.4); returns the
amplitude of this tick and the advanced envelope. -/
def getNextSample (a : ADSR R) : R × ADSR R :=
  match a.phase with
  | .idle => (0, a)
  | .attack =>
      if 1 ≤ a.currentAmplitude + a.rate then
        (1, { a with currentAmplitude := 1, phase := .decay, rampSpan := 1 - a.parameters.sustain })
      else
        (a.currentAmplitude + a.rate, { a with currentAmplitude := a.currentAmplitude + a.rate })
  | .decay =>
      if a.currentAmplitude - a.rate ≤ a.parameters.sustain then
        (a.parameters.sustain, { a with currentAmplitude := a.parameters.sustain, phase := .sustain })
      else
        (a.currentAmplitude - a.rate, { a with currentAmplitude := a.currentAmplitude - a.rate })
  | .sustain => (a.parameters.sustain, { a with currentAmplitude := a.parameters.sustain })
  | .release =>
      if a.currentAmplitude - a.rate ≤ 0 then
        (0, { a with currentAmplitude := 0, phase := .idle })
      else
        (a.currentAmplitude - a.rate, { a with currentAmplitude := a.currentAmplitude - a.rate })

/-- Modelled from the spec: the sample loop of `applyEnvelopeToBuffer`, one envelope
tick per sample position, scaling that position in every channel (§4.3). -/
def applyEnvelopeLoop : Nat → ADSR R → AudioBuffer R → Int → ADSR R × AudioBuffer R
  | 0, a, b, _ => (a, b)
  | k + 1, a, b, startSample =>
      applyEnvelopeLoop k a.getNextSample.2
        (b.scaleSample startSample a.getNextSample.1) (startSample + 1)

/-- Modelled from the spec: `applyEnvelopeToBuffer (buffer, startSample, numSamples)`
scales the `numSamples` positions from `startSample` on by successive envelope
ticks; a count that is not positive runs no tick. -/
def applyEnvelopeToBuffer (a : ADSR R) (b : AudioBuffer R) (startSample numSamples : Int) :
    ADSR R × AudioBuffer R :=
  applyEnvelopeLoop numSamples.toNat a b startSample

/-- Modelled from the spec: a newly constructed envelope is Idle with amplitude 0. -/
def fresh (sampleRate : R) : ADSR R :=
  { phase := .idle, currentAmplitude := 0,
    parameters := { attack := 0, decay := 0, sustain := 0, release := 0 },
    sampleRate := sampleRate, rampSpan := 0 }

end ADSR

/-! ## The voice -/

/-- The struct `SineWaveVoice`: its four `double` members, its envelope, and the
state it inherits from the voice base class (Modelled from the spec, §3: the
sample rate read by `getSampleRate()` and the assigned note and sound, which
`clearCurrentNote()` resets). -/
structure SineWaveVoice (R : Type) where
  currentAngle : R
  angleDelta : R
  level : R
  tailOff : R
  adsr : ADSR R
  adsrParams : ADSRParameters R
  sampleRate : R
  assignedNote : Option Int
  assignedSound : Option Nat

namespace SineWaveVoice

variable {R : Type} [LinearOrderedField R]

/-- Modelled from the spec: `clearCurrentNote()` of the voice base class clears the
assignment ("a Voice with `assignedNote = none` is free and owns no Sound"). -/
def clearCurrentNote (v : SineWaveVoice R) : SineWaveVoice R :=
  { v with assignedNote := none, assignedSound := none }

/-- The constructor `SineWaveVoice()`, for a voice running at `sampleRate` whose
envelope runs at `envelopeRate`. -/
def init (sampleRate envelopeRate : R) : SineWaveVoice R :=
  let adsrParams : ADSRParameters R :=
    { attack := 1 / 10, decay := 1 / 10, sustain := 1, release := 1 / 10 }
  { currentAngle := 0, angleDelta := 0, level := 0, tailOff := 0,
    adsr := (ADSR.fresh envelopeRate).setParameters adsrParams,
    adsrParams := adsrParams,
    sampleRate := sampleRate, assignedNote := none, assignedSound := none }

/-- The method `startNote (midiNoteNumber, velocity, sound, wheel)`. -/
def startNote (env : MathEnv R) (midiNoteNumber : Int) (velocity : R)
    (v : SineWaveVoice R) : SineWaveVoice R :=
  let cyclesPerSecond := env.getMidiNoteInHertz midiNoteNumber
  let cyclesPerSample := cyclesPerSecond / v.sampleRate
  let adsrParams : ADSRParameters R :=
    { attack := 1 / 10, decay := 1 / 10, sustain := 1, release := 2 / 10 }
  { v with
    currentAngle := 0
    level := velocity * (15 / 100)
    tailOff := 0
    angleDelta := cyclesPerSample * env.twoPi
    adsrParams := adsrParams
    adsr := (v.adsr.setParameters adsrParams).noteOn }

/-- Modelled from the spec: allocation of a voice to a note (§4.2 `noteOn`): the
pool assigns sound and note and then calls the voice's `startNote`. -/
def startVoice (env : MathEnv R) (sound : Nat) (midiNoteNumber : Int) (velocity : R)
    (v : SineWaveVoice R) : SineWaveVoice R :=
  startNote env midiNoteNumber velocity
    { v with assignedNote := some midiNoteNumber, assignedSound := some sound }

/-- The method `stopNote (velocity, allowTailOff)`. -/
def stopNote (_velocity : R) (allowTailOff : Bool) (v : SineWaveVoice R) : SineWaveVoice R :=
  let v1 :=
    if allowTailOff then
      (if v.tailOff = 0 then { v with tailOff := 1 } else v)
    else
      { v.clearCurrentNote with angleDelta := 0 }
  { v1 with adsr := v1.adsr.noteOff }

end SineWaveVoice

/-- The variables a render loop leaves behind: the voice, the buffer, and the
locals `startSample` and `numSamples`. -/
structure RenderState (R : Type) where
  voice : SineWaveVoice R
  buffer : AudioBuffer R
  startSample : Int
  numSamples : Int

namespace SineWaveVoice

variable {R : Type} [LinearOrderedField R]

/-- The tail-off loop of `renderNextBlock` (lines 89-108), entered with the given
`numSamples`; the `break` leaves `numSamples` at the count still to render. -/
def tailOffLoop (env : MathEnv R) (v : SineWaveVoice R) (b : AudioBuffer R)
    (startSample numSamples : Int) : RenderState R :=
  if 0 ≤ numSamples - 1 then
    let currentSample := env.sin v.currentAngle * v.level * v.tailOff
    let b1 := addToChannels b.numChannels b startSample currentSample
    let v1 := { v with currentAngle := v.currentAngle + v.angleDelta,
                       tailOff := v.tailOff * (99 / 100) }
    if v1.tailOff ≤ 5 / 1000 then
      { voice := { v1.clearCurrentNote with angleDelta := 0 }, buffer := b1,
        startSample := startSample + 1, numSamples := numSamples - 1 }
    else
      tailOffLoop env v1 b1 (startSample + 1) (numSamples - 1)
  else
    { voice := v, buffer := b, startSample := startSample, numSamples := numSamples - 1 }
termination_by numSamples.toNat
decreasing_by omega

/-- The sustaining loop of `renderNextBlock` (lines 112-121). -/
def sustainLoop (env : MathEnv R) (v : SineWaveVoice R) (b : AudioBuffer R)
    (startSample numSamples : Int) : RenderState R :=
  if 0 ≤ numSamples - 1 then
    let currentSample := env.sin v.currentAngle * v.level
    let b1 := addToChannels b.numChannels b startSample currentSample
    sustainLoop env { v with currentAngle := v.currentAngle + v.angleDelta } b1
      (startSample + 1) (numSamples - 1)
  else
    { voice := v, buffer := b, startSample := startSample, numSamples := numSamples - 1 }
termination_by numSamples.toNat
decreasing_by omega

/-- The last loop of `renderNextBlock` (lines 126-138), which scales each sample by
`adsr.getNextSample()`. -/
def envelopeLoop (env : MathEnv R) (v : SineWaveVoice R) (b : AudioBuffer R)
    (startSample numSamples : Int) : RenderState R :=
  if 0 ≤ numSamples - 1 then
    let currentSample := env.sin v.currentAngle * v.level * v.adsr.getNextSample.1
    let b1 := addToChannels b.numChannels b startSample currentSample
    envelopeLoop env
      { v with adsr := v.adsr.getNextSample.2, currentAngle := v.currentAngle + v.angleDelta }
      b1 (startSample + 1) (numSamples - 1)
  else
    { voice := v, buffer := b, startSample := startSample, numSamples := numSamples - 1 }
termination_by numSamples.toNat
decreasing_by omega

/-- The method `renderNextBlock (outputBuffer, startSample, numSamples)`; returns
the voice and the buffer as the call leaves them. -/
def renderNextBlock (env : MathEnv R) (v : SineWaveVoice R) (outputBuffer : AudioBuffer R)
    (startSample numSamples : Int) : SineWaveVoice R × AudioBuffer R :=
  let st : RenderState R :=
    if v.angleDelta ≠ 0 then
      let st1 :=
        if 0 < v.tailOff then tailOffLoop env v outputBuffer startSample numSamples
        else sustainLoop env v outputBuffer startSample numSamples
      let r := st1.voice.adsr.applyEnvelopeToBuffer st1.buffer 0 st1.numSamples
      { st1 with voice := { st1.voice with adsr := r.1 }, buffer := r.2 }
    else
      { voice := v, buffer := outputBuffer, startSample := startSample,
        numSamples := numSamples }
  let st2 := envelopeLoop env st.voice st.buffer st.startSample st.numSamples
  (st2.voice, st2.buffer)

end SineWaveVoice

/-! ## Closed forms of what the loops add -/

/-- The buffer a sustaining render of `n` samples is meant to leave: position
`startSample + k` of every channel gains `sin (currentAngle + k * angleDelta) * level`. -/
def sustainOutput {R : Type} [LinearOrderedField R] (env : MathEnv R) (v : SineWaveVoice R)
    (b : AudioBuffer R) (startSample : Int) (n : Nat) : AudioBuffer R :=
  { numChannels := b.numChannels
    data := fun c j =>
      if c < b.numChannels ∧ startSample ≤ j ∧ j < startSample + n then
        b.data c j
          + env.sin (v.currentAngle + ((j - startSample : Int) : R) * v.angleDelta) * v.level
      else b.data c j }

/-- The buffer a tail-off render of `n` samples leaves: position `startSample + k`
gains `sin (currentAngle + k * angleDelta) * level * (tailOff * 0.99 ^ k)`. -/
def tailOffOutput {R : Type} [LinearOrderedField R] (env : MathEnv R) (v : SineWaveVoice R)
    (b : AudioBuffer R) (startSample : Int) (n : Nat) : AudioBuffer R :=
  { numChannels := b.numChannels
    data := fun c j =>
      if c < b.numChannels ∧ startSample ≤ j ∧ j < startSample + n then
        b.data c j
          + env.sin (v.currentAngle + ((j - startSample : Int) : R) * v.angleDelta) * v.level
            * (v.tailOff * (99 / 100) ^ (j - startSample).toNat)
      else b.data c j }

/-- The envelope after `k` sample ticks. -/
def ADSR.ticks {R : Type} [LinearOrderedField R] : Nat → ADSR R → ADSR R
  | 0, a => a
  | k + 1, a => ADSR.ticks k a.getNextSample.2

/-- The envelope's amplitude at its `k`-th sample tick, counting from 0. -/
def ADSR.tickValue {R : Type} [LinearOrderedField R] (k : Nat) (a : ADSR R) : R :=
  (ADSR.ticks k a).getNextSample.1

/-- The buffer the envelope-scaled loop leaves after `n` samples: position
`startSample + k` gains `sin (currentAngle + k * angleDelta) * level * e_k`. -/
def envelopeOutput {R : Type} [LinearOrderedField R] (env : MathEnv R) (v : SineWaveVoice R)
    (b : AudioBuffer R) (startSample : Int) (n : Nat) : AudioBuffer R :=
  { numChannels := b.numChannels
    data := fun c j =>
      if c < b.numChannels ∧ startSample ≤ j ∧ j < startSample + n then
        b.data c j
          + env.sin (v.currentAngle + ((j - startSample : Int) : R) * v.angleDelta) * v.level
            * v.adsr.tickValue (j - startSample).toNat
      else b.data c j }

/-- The buffer after scaling `n` positions from `startSample` on by successive
envelope ticks. -/
def scaledOutput {R : Type} [LinearOrderedField R] (a : ADSR R)
    (b : AudioBuffer R) (startSample : Int) (n : Nat) : AudioBuffer R :=
  { numChannels := b.numChannels
    data := fun c j =>
      if c < b.numChannels ∧ startSample ≤ j ∧ j < startSample + n then
        b.data c j * a.tickValue (j - startSample).toNat
      else b.data c j }

/-- An envelope that is silent for good: amplitude 0, and either Idle or in a
Release ramp of span 0. -/
def ADSR.Quiet {R : Type} [LinearOrderedField R] (a : ADSR R) : Prop :=
  a.currentAmplitude = 0 ∧ (a.phase = .idle ∨ (a.phase = .release ∧ a.rampSpan = 0))

/-- The voice states the program can reach: a constructed voice, then any sequence
of note starts (through the pool), note stops, rendered blocks and changes of the
playback sample rate (`prepareToPlay`). -/
inductive Reachable {R : Type} [LinearOrderedField R] (env : MathEnv R) (sr er : R) :
    SineWaveVoice R → Prop
  | init : Reachable env sr er (SineWaveVoice.init sr er)
  | startVoice (sound : Nat) (n : Int) (velocity : R) {v : SineWaveVoice R} :
      Reachable env sr er v → Reachable env sr er (SineWaveVoice.startVoice env sound n velocity v)
  | stopNote (velocity : R) (allowTailOff : Bool) {v : SineWaveVoice R} :
      Reachable env sr er v → Reachable env sr er (SineWaveVoice.stopNote velocity allowTailOff v)
  | render (b : AudioBuffer R) (startSample numSamples : Int) {v : SineWaveVoice R} :
      Reachable env sr er v →
        Reachable env sr er (SineWaveVoice.renderNextBlock env v b startSample numSamples).1
  | setSampleRate (newRate : R) (hnew : newRate ≠ 0) {v : SineWaveVoice R} :
      Reachable env sr er v → Reachable env sr er { v with sampleRate := newRate }

/-- What every reachable voice satisfies: its envelope has amplitude 0 and is either
silent for good or in an Attack that no render has ticked yet (the voice is then
sounding and not tailing off). -/
def VoiceInv {R : Type} [LinearOrderedField R] (v : SineWaveVoice R) : Prop :=
  v.sampleRate ≠ 0
    ∧ (v.adsr.Quiet
      ∨ (v.adsr.currentAmplitude = 0 ∧ v.adsr.phase = .attack
          ∧ v.angleDelta ≠ 0 ∧ v.tailOff = 0))

/-- Successive `renderNextBlock` calls, one per listed block (its buffer, start
sample and length); returns the voice after the last of them. -/
def renderBlocks {R : Type} [LinearOrderedField R] (env : MathEnv R) :
    SineWaveVoice R → List (AudioBuffer R × Int × Nat) → SineWaveVoice R
  | v, [] => v
  | v, blk :: rest =>
      renderBlocks env (SineWaveVoice.renderNextBlock env v blk.1 blk.2.1 blk.2.2).1 rest

/-- The number of samples rendered by a list of blocks. -/
def totalSamples {R : Type} : List (AudioBuffer R × Int × Nat) → Nat
  | [] => 0
  | blk :: rest => blk.2.2 + totalSamples rest

/-- The voice of the release scenario: note 60 started at velocity 1 through the
pool, 4800 samples rendered, then `stopNote (_, true)`. -/
def releasedVoice {R : Type} [LinearOrderedField R] (env : MathEnv R) (sound : Nat)
    (v : SineWaveVoice R) (b0 : AudioBuffer R) (s0 : Int) (velocity : R) : SineWaveVoice R :=
  SineWaveVoice.stopNote velocity true
    (SineWaveVoice.renderNextBlock env (SineWaveVoice.startVoice env sound 60 1 v) b0 s0 4800).1

section Lemmas

set_option linter.unusedSectionVars false

variable {R : Type} [LinearOrderedField R]

theorem AudioBuffer.ext_data {b b' : AudioBuffer R} (h1 : b.numChannels = b'.numChannels)
    (h2 : ∀ c j, b.data c j = b'.data c j) : b = b' := by
  cases b; cases b'
  simp only [AudioBuffer.mk.injEq]
  exact ⟨h1, funext fun c => funext fun j => h2 c j⟩

theorem addToChannels_numChannels (i : Nat) (b : AudioBuffer R) (s : Int) (x : R) :
    (addToChannels i b s x).numChannels = b.numChannels := by
  induction i generalizing b with
  | zero => rfl
  | succ i ih => simp [addToChannels, ih, AudioBuffer.addSample]

theorem addToChannels_data (i : Nat) (b : AudioBuffer R) (s : Int) (x : R) (c : Nat) (j : Int) :
    (addToChannels i b s x).data c j
      = if c < i ∧ j = s then b.data c j + x else b.data c j := by
  induction i generalizing b with
  | zero => simp [addToChannels]
  | succ i ih =>
    simp only [addToChannels, ih, AudioBuffer.addSample]
    by_cases hj : j = s
    · by_cases hc : c < i
      · have : c ≠ i := by omega
        have : c < i + 1 := by omega
        simp [*]
      · by_cases hci : c = i
        · simp [*]
        · have : ¬ c < i + 1 := by omega
          simp [*]
    · simp [hj]

theorem sustainLoop_nonpos (env : MathEnv R) (v : SineWaveVoice R) (b : AudioBuffer R)
    (s n : Int) (h : n ≤ 0) :
    SineWaveVoice.sustainLoop env v b s n
      = { voice := v, buffer := b, startSample := s, numSamples := n - 1 } := by
  rw [SineWaveVoice.sustainLoop]
  have : ¬ (0 ≤ n - 1) := by omega
  simp [this]

theorem sustainLoop_eq (env : MathEnv R) (n : Nat) (v : SineWaveVoice R) (b : AudioBuffer R)
    (s : Int) :
    SineWaveVoice.sustainLoop env v b s n
      = { voice := { v with currentAngle := v.currentAngle + n * v.angleDelta }
          buffer := sustainOutput env v b s n
          startSample := s + n
          numSamples := -1 } := by
  induction n generalizing v b s with
  | zero =>
    rw [sustainLoop_nonpos env v b s _ (by simp)]
    simp only [Nat.cast_zero, zero_mul, add_zero, zero_sub, RenderState.mk.injEq, and_true, true_and]
    refine AudioBuffer.ext_data rfl ?_
    intro c j
    have : ¬ (s ≤ j ∧ j < s) := by omega
    simp [sustainOutput, this]
  | succ n ih =>
    rw [SineWaveVoice.sustainLoop]
    have h1 : (0 : Int) ≤ ((n + 1 : Nat) : Int) - 1 := by push_cast; omega
    have h2 : ((n + 1 : Nat) : Int) - 1 = n := by push_cast; omega
    rw [if_pos h1]
    simp only [h2, ih]
    simp only [RenderState.mk.injEq]
    refine ⟨?_, ?_, ?_, trivial⟩
    · congr 1
      push_cast; ring
    · refine AudioBuffer.ext_data ?_ ?_
      · simp [sustainOutput, addToChannels_numChannels]
      · intro c j
        simp only [sustainOutput, addToChannels_numChannels, addToChannels_data, Nat.cast_succ]
        by_cases hc : c < b.numChannels
        · rcases lt_trichotomy j s with hlt | heq | hgt
          · have e1 : ¬ (s + 1 ≤ j ∧ j < s + 1 + n) := by omega
            have e2 : ¬ (s ≤ j ∧ j < s + ((n : Int) + 1)) := by omega
            have e3 : j ≠ s := by omega
            simp [e1, e2, e3]
          · subst heq
            have e1 : ¬ (j + 1 ≤ j ∧ j < j + 1 + n) := by omega
            have e2 : (j ≤ j ∧ j < j + ((n : Int) + 1)) := by omega
            simp [e1, e2, hc]
          · have e3 : j ≠ s := by omega
            by_cases hj : j < s + 1 + n
            · have e1 : (s + 1 ≤ j ∧ j < s + 1 + n) := by omega
              have e2 : (s ≤ j ∧ j < s + ((n : Int) + 1)) := by omega
              simp only [hc, e1, e2, e3, and_self, if_true, and_false, if_false, true_and]
              congr 3
              push_cast; ring
            · have e1 : ¬ (s + 1 ≤ j ∧ j < s + 1 + n) := by omega
              have e2 : ¬ (s ≤ j ∧ j < s + ((n : Int) + 1)) := by omega
              simp [e1, e2, e3]
        · simp [hc]
    · push_cast; omega

theorem tailOffLoop_nonpos (env : MathEnv R) (v : SineWaveVoice R) (b : AudioBuffer R)
    (s n : Int) (h : n ≤ 0) :
    SineWaveVoice.tailOffLoop env v b s n
      = { voice := v, buffer := b, startSample := s, numSamples := n - 1 } := by
  rw [SineWaveVoice.tailOffLoop]
  have : ¬ (0 ≤ n - 1) := by omega
  simp [this]

theorem tailOffOutput_zero (env : MathEnv R) (v : SineWaveVoice R) (b : AudioBuffer R)
    (s : Int) : tailOffOutput env v b s 0 = b := by
  refine AudioBuffer.ext_data rfl ?_
  intro c j
  have : ¬ (s ≤ j ∧ j < s) := by omega
  simp [tailOffOutput, this]

theorem tailOffOutput_succ (env : MathEnv R) (v : SineWaveVoice R) (b : AudioBuffer R)
    (s : Int) (m : Nat) :
    addToChannels b.numChannels (tailOffOutput env v b s m) (s + m)
        (env.sin (v.currentAngle + m * v.angleDelta) * v.level * (v.tailOff * (99 / 100) ^ m))
      = tailOffOutput env v b s (m + 1) := by
  refine AudioBuffer.ext_data ?_ ?_
  · simp [tailOffOutput, addToChannels_numChannels]
  · intro c j
    simp only [tailOffOutput, addToChannels_data, Nat.cast_succ]
    by_cases hc : c < b.numChannels
    · by_cases hj : j = s + m
      · subst hj
        have e1 : ¬ (s ≤ s + (m : Int) ∧ s + (m : Int) < s + m) := by omega
        have e2 : (s ≤ s + (m : Int) ∧ s + (m : Int) < s + ((m : Int) + 1)) := by omega
        have e3 : (s + (m : Int) - s) = m := by omega
        simp [e1, e2, e3, hc]
      · by_cases hj2 : s ≤ j ∧ j < s + m
        · have e2 : (s ≤ j ∧ j < s + ((m : Int) + 1)) := by omega
          simp [hj, hj2, e2, hc]
        · have e2 : ¬ (s ≤ j ∧ j < s + ((m : Int) + 1)) := by omega
          simp [hj, hj2, e2]
    · simp [hc]

/-- As long as the tail-off stays above the threshold, the first `m` iterations of
the tail-off loop only advance the phase, scale `tailOff` and add their samples. -/
theorem tailOffLoop_front (env : MathEnv R) (m : Nat) (v : SineWaveVoice R)
    (b : AudioBuffer R) (s N : Int) (hN : (m : Int) ≤ N)
    (h : ∀ k : Nat, 1 ≤ k → k ≤ m → 5 / 1000 < v.tailOff * (99 / 100 : R) ^ k) :
    SineWaveVoice.tailOffLoop env v b s N
      = SineWaveVoice.tailOffLoop env
          { v with currentAngle := v.currentAngle + m * v.angleDelta
                   tailOff := v.tailOff * (99 / 100) ^ m }
          (tailOffOutput env v b s m) (s + m) (N - m) := by
  induction m with
  | zero => simp [tailOffOutput_zero]
  | succ m ih =>
    have hN1 : (m : Int) ≤ N := by push_cast at hN; omega
    rw [ih hN1 (fun k h1 h2 => h k h1 (by omega))]
    rw [SineWaveVoice.tailOffLoop]
    have h1 : (0 : Int) ≤ N - m - 1 := by push_cast at hN; omega
    rw [if_pos h1]
    have h2 : ¬ (v.tailOff * (99 / 100 : R) ^ m * (99 / 100) ≤ 5 / 1000) := by
      have := h (m + 1) (by omega) le_rfl
      rw [pow_succ, ← mul_assoc] at this
      exact not_le.mpr this
    simp only [h2, if_false]
    have e1 : (tailOffOutput env v b s m).numChannels = b.numChannels := rfl
    rw [e1, tailOffOutput_succ]
    congr 1
    · congr 1
      · push_cast; ring
      · rw [pow_succ, mul_assoc]
    · push_cast; omega
    · push_cast; omega

/-- A tail-off render of `n` samples that never reaches the threshold. -/
theorem tailOffLoop_noBreak (env : MathEnv R) (n : Nat) (v : SineWaveVoice R)
    (b : AudioBuffer R) (s : Int)
    (h : ∀ k : Nat, 1 ≤ k → k ≤ n → 5 / 1000 < v.tailOff * (99 / 100 : R) ^ k) :
    SineWaveVoice.tailOffLoop env v b s n
      = { voice := { v with currentAngle := v.currentAngle + n * v.angleDelta
                            tailOff := v.tailOff * (99 / 100) ^ n }
          buffer := tailOffOutput env v b s n
          startSample := s + n
          numSamples := -1 } := by
  rw [tailOffLoop_front env n v b s n le_rfl h, tailOffLoop_nonpos _ _ _ _ _ (by omega)]
  simp

/-- A tail-off render that reaches the threshold at its `m + 1`-th sample: the loop
breaks there, clears the note and leaves the rest of the count in `numSamples`. -/
theorem tailOffLoop_break (env : MathEnv R) (m : Nat) (v : SineWaveVoice R)
    (b : AudioBuffer R) (s N : Int) (hN : (m : Int) + 1 ≤ N)
    (h : ∀ k : Nat, 1 ≤ k → k ≤ m → 5 / 1000 < v.tailOff * (99 / 100 : R) ^ k)
    (hb : v.tailOff * (99 / 100 : R) ^ (m + 1) ≤ 5 / 1000) :
    SineWaveVoice.tailOffLoop env v b s N
      = { voice := { v with currentAngle := v.currentAngle + (m + 1 : Nat) * v.angleDelta
                            tailOff := v.tailOff * (99 / 100) ^ (m + 1)
                            angleDelta := 0
                            assignedNote := none
                            assignedSound := none }
          buffer := tailOffOutput env v b s (m + 1)
          startSample := s + (m + 1 : Nat)
          numSamples := N - (m + 1 : Nat) } := by
  rw [tailOffLoop_front env m v b s N (by omega) h]
  rw [SineWaveVoice.tailOffLoop]
  have h1 : (0 : Int) ≤ N - m - 1 := by omega
  rw [if_pos h1]
  have h2 : v.tailOff * (99 / 100 : R) ^ m * (99 / 100) ≤ 5 / 1000 := by
    rw [pow_succ, ← mul_assoc] at hb
    exact hb
  simp only [h2, if_true]
  have e1 : (tailOffOutput env v b s m).numChannels = b.numChannels := rfl
  rw [e1, tailOffOutput_succ]
  simp only [SineWaveVoice.clearCurrentNote, RenderState.mk.injEq]
  refine ⟨?_, trivial, ?_, ?_⟩
  · congr 1
    · push_cast; ring
    · rw [pow_succ, mul_assoc]
  · push_cast; omega
  · push_cast; omega

/-! ### Envelope ticks -/

theorem ADSR.ticks_succ_last (k : Nat) (a : ADSR R) :
    ADSR.ticks (k + 1) a = (ADSR.ticks k a).getNextSample.2 := by
  induction k generalizing a with
  | zero => rfl
  | succ k ih =>
    rw [ADSR.ticks, ih]
    rfl

theorem ADSR.Quiet.getNextSample_fst {a : ADSR R} (h : a.Quiet) : a.getNextSample.1 = 0 := by
  obtain ⟨h0, h1 | ⟨h1, h2⟩⟩ := h
  · simp [ADSR.getNextSample, h1]
  · simp [ADSR.getNextSample, h1, h0, ADSR.rate, h2]

theorem ADSR.Quiet.getNextSample_snd {a : ADSR R} (h : a.Quiet) : a.getNextSample.2.Quiet := by
  obtain ⟨h0, h1 | ⟨h1, h2⟩⟩ := h
  · simp [ADSR.getNextSample, h1, ADSR.Quiet, h0]
  · simp [ADSR.getNextSample, h1, h0, ADSR.rate, h2, ADSR.Quiet]

theorem ADSR.Quiet.ticks {a : ADSR R} (h : a.Quiet) (k : Nat) : (ADSR.ticks k a).Quiet := by
  induction k generalizing a with
  | zero => exact h
  | succ k ih => exact ih h.getNextSample_snd

theorem ADSR.Quiet.tickValue {a : ADSR R} (h : a.Quiet) (k : Nat) : a.tickValue k = 0 :=
  (h.ticks k).getNextSample_fst

theorem ADSR.Quiet.noteOff {a : ADSR R} (h : a.Quiet) : a.noteOff.Quiet := by
  obtain ⟨h0, h1 | ⟨h1, h2⟩⟩ := h
  · simp [ADSR.noteOff, h1, ADSR.Quiet, h0]
  · simp [ADSR.noteOff, h1, ADSR.Quiet, h0]

theorem ADSR.noteOff_noteOff (a : ADSR R) : a.noteOff.noteOff = a.noteOff := by
  by_cases h : a.phase = .idle
  · simp [ADSR.noteOff, h]
  · simp [ADSR.noteOff, h]

/-! ### The envelope-scaling loops -/

theorem scaledOutput_zero (a : ADSR R) (b : AudioBuffer R) (s : Int) :
    scaledOutput a b s 0 = b := by
  refine AudioBuffer.ext_data rfl ?_
  intro c j
  have : ¬ (s ≤ j ∧ j < s) := by omega
  simp [scaledOutput, this]

theorem scaledOutput_succ (a : ADSR R) (b : AudioBuffer R) (s : Int) (m : Nat) :
    (scaledOutput a b s m).scaleSample (s + m) (a.tickValue m) = scaledOutput a b s (m + 1) := by
  refine AudioBuffer.ext_data rfl ?_
  intro c j
  simp only [scaledOutput, AudioBuffer.scaleSample, Nat.cast_succ]
  by_cases hc : c < b.numChannels
  · by_cases hj : j = s + m
    · subst hj
      have e1 : ¬ (s ≤ s + (m : Int) ∧ s + (m : Int) < s + m) := by omega
      have e2 : (s ≤ s + (m : Int) ∧ s + (m : Int) < s + ((m : Int) + 1)) := by omega
      have e3 : (s + (m : Int) - s) = m := by omega
      simp [e1, e2, e3, hc]
    · by_cases hj2 : s ≤ j ∧ j < s + m
      · have e2 : (s ≤ j ∧ j < s + ((m : Int) + 1)) := by omega
        simp [hj, hj2, e2, hc]
      · have e2 : ¬ (s ≤ j ∧ j < s + ((m : Int) + 1)) := by omega
        simp [hj, hj2, e2]
  · simp [hc]

theorem applyEnvelopeLoop_front (m k : Nat) (a : ADSR R) (b : AudioBuffer R) (s : Int) :
    ADSR.applyEnvelopeLoop (m + k) a b s
      = ADSR.applyEnvelopeLoop k (ADSR.ticks m a) (scaledOutput a b s m) (s + m) := by
  induction m generalizing k with
  | zero => simp [scaledOutput_zero, ADSR.ticks]
  | succ m ih =>
    have e : m + 1 + k = m + (k + 1) := by omega
    rw [e, ih (k + 1), ADSR.applyEnvelopeLoop, ADSR.ticks_succ_last]
    have e2 : a.tickValue m = (ADSR.ticks m a).getNextSample.1 := rfl
    rw [← e2, scaledOutput_succ]
    congr 1
    push_cast; omega

theorem applyEnvelopeLoop_eq (n : Nat) (a : ADSR R) (b : AudioBuffer R) (s : Int) :
    ADSR.applyEnvelopeLoop n a b s = (ADSR.ticks n a, scaledOutput a b s n) := by
  have := applyEnvelopeLoop_front n 0 a b s
  simpa [ADSR.applyEnvelopeLoop] using this

theorem applyEnvelopeToBuffer_neg (a : ADSR R) (b : AudioBuffer R) (s n : Int) (h : n ≤ 0) :
    a.applyEnvelopeToBuffer b s n = (a, b) := by
  have : n.toNat = 0 := by omega
  simp [ADSR.applyEnvelopeToBuffer, this, ADSR.applyEnvelopeLoop]

theorem envelopeLoop_nonpos (env : MathEnv R) (v : SineWaveVoice R) (b : AudioBuffer R)
    (s n : Int) (h : n ≤ 0) :
    SineWaveVoice.envelopeLoop env v b s n
      = { voice := v, buffer := b, startSample := s, numSamples := n - 1 } := by
  rw [SineWaveVoice.envelopeLoop]
  have : ¬ (0 ≤ n - 1) := by omega
  simp [this]

theorem envelopeOutput_zero (env : MathEnv R) (v : SineWaveVoice R) (b : AudioBuffer R)
    (s : Int) : envelopeOutput env v b s 0 = b := by
  refine AudioBuffer.ext_data rfl ?_
  intro c j
  have : ¬ (s ≤ j ∧ j < s) := by omega
  simp [envelopeOutput, this]

theorem envelopeOutput_succ (env : MathEnv R) (v : SineWaveVoice R) (b : AudioBuffer R)
    (s : Int) (m : Nat) :
    addToChannels b.numChannels (envelopeOutput env v b s m) (s + m)
        (env.sin (v.currentAngle + m * v.angleDelta) * v.level * v.adsr.tickValue m)
      = envelopeOutput env v b s (m + 1) := by
  refine AudioBuffer.ext_data ?_ ?_
  · simp [envelopeOutput, addToChannels_numChannels]
  · intro c j
    simp only [envelopeOutput, addToChannels_data, Nat.cast_succ]
    by_cases hc : c < b.numChannels
    · by_cases hj : j = s + m
      · subst hj
        have e1 : ¬ (s ≤ s + (m : Int) ∧ s + (m : Int) < s + m) := by omega
        have e2 : (s ≤ s + (m : Int) ∧ s + (m : Int) < s + ((m : Int) + 1)) := by omega
        have e3 : (s + (m : Int) - s) = m := by omega
        simp [e1, e2, e3, hc]
      · by_cases hj2 : s ≤ j ∧ j < s + m
        · have e2 : (s ≤ j ∧ j < s + ((m : Int) + 1)) := by omega
          simp [hj, hj2, e2, hc]
        · have e2 : ¬ (s ≤ j ∧ j < s + ((m : Int) + 1)) := by omega
          simp [hj, hj2, e2]
    · simp [hc]

theorem envelopeLoop_front (env : MathEnv R) (m : Nat) (v : SineWaveVoice R)
    (b : AudioBuffer R) (s N : Int) (hN : (m : Int) ≤ N) :
    SineWaveVoice.envelopeLoop env v b s N
      = SineWaveVoice.envelopeLoop env
          { v with currentAngle := v.currentAngle + m * v.angleDelta
                   adsr := ADSR.ticks m v.adsr }
          (envelopeOutput env v b s m) (s + m) (N - m) := by
  induction m with
  | zero => simp [envelopeOutput_zero, ADSR.ticks]
  | succ m ih =>
    have hN1 : (m : Int) ≤ N := by push_cast at hN; omega
    rw [ih hN1]
    rw [SineWaveVoice.envelopeLoop]
    have h1 : (0 : Int) ≤ N - m - 1 := by push_cast at hN; omega
    rw [if_pos h1]
    have e1 : (envelopeOutput env v b s m).numChannels = b.numChannels := rfl
    have e2 : (ADSR.ticks m v.adsr).getNextSample.1 = v.adsr.tickValue m := rfl
    simp only [e1, e2, envelopeOutput_succ, ← ADSR.ticks_succ_last]
    congr 1
    · congr 1
      push_cast; ring
    · push_cast; omega
    · push_cast; omega

/-- The envelope-scaled loop over `n` samples. -/
theorem envelopeLoop_eq (env : MathEnv R) (n : Nat) (v : SineWaveVoice R)
    (b : AudioBuffer R) (s : Int) :
    SineWaveVoice.envelopeLoop env v b s n
      = { voice := { v with currentAngle := v.currentAngle + n * v.angleDelta
                            adsr := ADSR.ticks n v.adsr }
          buffer := envelopeOutput env v b s n
          startSample := s + n
          numSamples := -1 } := by
  rw [envelopeLoop_front env n v b s n le_rfl, envelopeLoop_nonpos _ _ _ _ _ (by omega)]
  simp

/-! ### `renderNextBlock` case by case -/

theorem sustainOutput_zero (env : MathEnv R) (v : SineWaveVoice R) (b : AudioBuffer R)
    (s : Int) : sustainOutput env v b s 0 = b := by
  refine AudioBuffer.ext_data rfl ?_
  intro c j
  have : ¬ (s ≤ j ∧ j < s) := by omega
  simp [sustainOutput, this]

/-- A sounding voice that is not tailing off: only the sustaining loop runs. -/
theorem renderNextBlock_sustain (env : MathEnv R) (v : SineWaveVoice R) (b : AudioBuffer R)
    (s N : Int) (hd : v.angleDelta ≠ 0) (ht : ¬ 0 < v.tailOff) :
    SineWaveVoice.renderNextBlock env v b s N
      = ({ v with currentAngle := v.currentAngle + (N.toNat : R) * v.angleDelta },
          sustainOutput env v b s N.toNat) := by
  rcases le_or_lt N 0 with hN | hN
  · have e : N.toNat = 0 := by omega
    simp only [SineWaveVoice.renderNextBlock, hd, ht, ne_eq, not_false_eq_true, if_true, if_false,
      sustainLoop_nonpos env v b s N hN, e, sustainOutput_zero]
    rw [applyEnvelopeToBuffer_neg _ _ _ _ (by omega), envelopeLoop_nonpos _ _ _ _ _ (by omega)]
    simp
  · obtain ⟨n, rfl⟩ : ∃ n : Nat, N = n := ⟨N.toNat, by omega⟩
    simp only [SineWaveVoice.renderNextBlock, hd, ht, ne_eq, not_false_eq_true, if_true, if_false,
      sustainLoop_eq, Int.toNat_ofNat]
    rw [applyEnvelopeToBuffer_neg _ _ _ _ (by omega), envelopeLoop_nonpos _ _ _ _ _ (by omega)]

/-- A voice whose phase increment is zero: only the envelope-scaled loop runs. -/
theorem renderNextBlock_silent (env : MathEnv R) (v : SineWaveVoice R) (b : AudioBuffer R)
    (s N : Int) (hd : v.angleDelta = 0) :
    SineWaveVoice.renderNextBlock env v b s N
      = ({ v with adsr := ADSR.ticks N.toNat v.adsr }, envelopeOutput env v b s N.toNat) := by
  rcases le_or_lt N 0 with hN | hN
  · have e : N.toNat = 0 := by omega
    simp only [SineWaveVoice.renderNextBlock, hd, ne_eq, not_true_eq_false, if_false, e,
      envelopeOutput_zero, envelopeLoop_nonpos env v b s N hN, ADSR.ticks]
    congr 1
    cases v
    simp_all
  · obtain ⟨n, rfl⟩ : ∃ n : Nat, N = n := ⟨N.toNat, by omega⟩
    simp only [SineWaveVoice.renderNextBlock, hd, ne_eq, not_true_eq_false, if_false,
      envelopeLoop_eq, Int.toNat_ofNat, mul_zero, add_zero]

/-- A tailing-off voice whose tail-off stays above the threshold for the whole block. -/
theorem renderNextBlock_tailOff (env : MathEnv R) (v : SineWaveVoice R) (b : AudioBuffer R)
    (s : Int) (n : Nat) (hd : v.angleDelta ≠ 0) (ht : 0 < v.tailOff)
    (h : ∀ k : Nat, 1 ≤ k → k ≤ n → 5 / 1000 < v.tailOff * (99 / 100 : R) ^ k) :
    SineWaveVoice.renderNextBlock env v b s n
      = ({ v with currentAngle := v.currentAngle + n * v.angleDelta
                  tailOff := v.tailOff * (99 / 100) ^ n },
          tailOffOutput env v b s n) := by
  simp only [SineWaveVoice.renderNextBlock, hd, ht, ne_eq, not_false_eq_true, if_true,
    tailOffLoop_noBreak env n v b s h]
  rw [applyEnvelopeToBuffer_neg _ _ _ _ (by omega), envelopeLoop_nonpos _ _ _ _ _ (by omega)]

/-- A tailing-off voice whose tail-off reaches the threshold at sample `m + 1` of a
block of `m + 1 + r` samples: the note is cleared, the envelope is then applied to
the `r` positions from 0 on, and the envelope-scaled loop renders `r` samples. -/
theorem renderNextBlock_break (env : MathEnv R) (v : SineWaveVoice R) (b : AudioBuffer R)
    (s : Int) (m r : Nat) (hd : v.angleDelta ≠ 0) (ht : 0 < v.tailOff)
    (h : ∀ k : Nat, 1 ≤ k → k ≤ m → 5 / 1000 < v.tailOff * (99 / 100 : R) ^ k)
    (hb : v.tailOff * (99 / 100 : R) ^ (m + 1) ≤ 5 / 1000) :
    SineWaveVoice.renderNextBlock env v b s ((m + 1 + r : Nat) : Int)
      = ({ v with currentAngle := v.currentAngle + (m + 1 : Nat) * v.angleDelta
                  tailOff := v.tailOff * (99 / 100) ^ (m + 1)
                  angleDelta := 0
                  assignedNote := none
                  assignedSound := none
                  adsr := ADSR.ticks r (ADSR.ticks r v.adsr) },
          envelopeOutput env
            { v with currentAngle := v.currentAngle + (m + 1 : Nat) * v.angleDelta
                     angleDelta := 0
                     adsr := ADSR.ticks r v.adsr }
            (scaledOutput v.adsr (tailOffOutput env v b s (m + 1)) 0 r) (s + (m + 1 : Nat)) r) := by
  have hN : (m : Int) + 1 ≤ ((m + 1 + r : Nat) : Int) := by push_cast; omega
  have hr : ((m + 1 + r : Nat) : Int) - ((m + 1 : Nat) : Int) = r := by push_cast; omega
  simp only [SineWaveVoice.renderNextBlock, hd, ht, ne_eq, not_false_eq_true, if_true,
    tailOffLoop_break env m v b s _ hN h hb, hr, ADSR.applyEnvelopeToBuffer, Int.toNat_ofNat,
    applyEnvelopeLoop_eq, envelopeLoop_eq, mul_zero, add_zero]
  rfl

/-! ### Facts used by several claims -/

/-- Within `n` samples the tail-off either stays above the threshold throughout or
first reaches it at some sample `m + 1 ≤ n`. -/
theorem tailOff_threshold_cases (t : R) (n : Nat) :
    (∀ k : Nat, 1 ≤ k → k ≤ n → 5 / 1000 < t * (99 / 100 : R) ^ k)
      ∨ ∃ m : Nat, m + 1 ≤ n
          ∧ (∀ k : Nat, 1 ≤ k → k ≤ m → 5 / 1000 < t * (99 / 100 : R) ^ k)
          ∧ t * (99 / 100 : R) ^ (m + 1) ≤ 5 / 1000 := by
  induction n with
  | zero =>
    left
    intro k h1 h2
    omega
  | succ n ih =>
    rcases ih with h | ⟨m, hm, h1, h2⟩
    · rcases le_or_lt (t * (99 / 100 : R) ^ (n + 1)) (5 / 1000) with hle | hlt
      · exact Or.inr ⟨n, le_rfl, h, hle⟩
      · left
        intro k h1 h2
        rcases Nat.lt_or_ge k (n + 1) with hk | hk
        · exact h k h1 (by omega)
        · have : k = n + 1 := by omega
          subst this
          exact hlt
    · exact Or.inr ⟨m, by omega, h1, h2⟩

/-- A voice that still has a nonzero phase increment after a render had one before,
and the render changed nothing but its phase and its tail-off, the latter staying
nonzero if it was. -/
theorem renderNextBlock_sounding (env : MathEnv R) (v : SineWaveVoice R) (b : AudioBuffer R)
    (s N : Int) (h : (SineWaveVoice.renderNextBlock env v b s N).1.angleDelta ≠ 0) :
    ∃ x t : R, (SineWaveVoice.renderNextBlock env v b s N).1
        = { v with currentAngle := x, tailOff := t } ∧ (v.tailOff ≠ 0 → t ≠ 0) := by
  by_cases hd : v.angleDelta = 0
  · rw [renderNextBlock_silent env v b s N hd] at h
    exact absurd hd h
  · by_cases ht : 0 < v.tailOff
    · rcases le_or_lt N 0 with hN | hN
      · refine ⟨v.currentAngle, v.tailOff, ?_, fun h => h⟩
        simp only [SineWaveVoice.renderNextBlock, hd, ht, ne_eq, not_false_eq_true, if_true,
          tailOffLoop_nonpos env v b s N hN]
        rw [applyEnvelopeToBuffer_neg _ _ _ _ (by omega), envelopeLoop_nonpos _ _ _ _ _ (by omega)]
      · obtain ⟨n, rfl⟩ : ∃ n : Nat, N = n := ⟨N.toNat, by omega⟩
        rcases tailOff_threshold_cases v.tailOff n with hk | ⟨m, hm, hk, hb⟩
        · rw [renderNextBlock_tailOff env v b s n hd ht hk]
          refine ⟨_, _, rfl, fun _ => ?_⟩
          exact mul_ne_zero (ne_of_gt ht) (pow_ne_zero _ (by norm_num))
        · obtain ⟨r, rfl⟩ : ∃ r : Nat, n = m + 1 + r := ⟨n - (m + 1), by omega⟩
          rw [renderNextBlock_break env v b s m r hd ht hk hb] at h
          exact absurd rfl h
    · rw [renderNextBlock_sustain env v b s N hd ht]
      exact ⟨_, _, rfl, fun h => h⟩

theorem sustainOutput_append (env : MathEnv R) (v : SineWaveVoice R) (b : AudioBuffer R)
    (s : Int) (n m : Nat) :
    sustainOutput env { v with currentAngle := v.currentAngle + n * v.angleDelta }
        (sustainOutput env v b s n) (s + n) m
      = sustainOutput env v b s (n + m) := by
  refine AudioBuffer.ext_data rfl ?_
  intro c j
  simp only [sustainOutput, Nat.cast_add]
  by_cases hc : c < b.numChannels
  · by_cases h1 : s ≤ j ∧ j < s + n
    · have e1 : ¬ (s + (n : Int) ≤ j ∧ j < s + n + m) := by omega
      have e2 : s ≤ j ∧ j < s + ((n : Int) + m) := by omega
      simp [h1, e1, e2, hc]
    · by_cases h2 : s + (n : Int) ≤ j ∧ j < s + n + m
      · have e3 : ¬ (j < s + (n : Int)) := by omega
        have e4 : j < s + ((n : Int) + m) := by omega
        have e5 : s ≤ j := by omega
        simp only [hc, h2, e3, e4, e5, and_self, if_true, and_false, if_false, true_and]
        congr 3
        push_cast; ring
      · have e2 : ¬ (s ≤ j ∧ j < s + ((n : Int) + m)) := by omega
        simp [h1, h2, e2]
  · simp [hc]

theorem stopNote_tailOff_ne_zero (x : R) (v : SineWaveVoice R) :
    (SineWaveVoice.stopNote x true v).tailOff ≠ 0 := by
  by_cases h : v.tailOff = 0
  · simp [SineWaveVoice.stopNote, h]
  · simp [SineWaveVoice.stopNote, h]

/-- A freshly started note has a nonzero phase increment and no tail-off, as long as
its frequency, `pi` and the sample rate are not 0. -/
theorem startVoice_sounding (env : MathEnv R) (n : Int) (hhz : env.getMidiNoteInHertz n ≠ 0)
    (hpi : env.pi ≠ 0) (snd : Nat) (vel : R) (v : SineWaveVoice R) (hsr : v.sampleRate ≠ 0) :
    (SineWaveVoice.startVoice env snd n vel v).angleDelta ≠ 0
      ∧ (SineWaveVoice.startVoice env snd n vel v).tailOff = 0 := by
  simp [SineWaveVoice.startVoice, SineWaveVoice.startNote, MathEnv.twoPi, hhz, hpi, hsr]

/-! ### Reachable voices -/

theorem VoiceInv.init (sr er : R) (hsr : sr ≠ 0) : VoiceInv (SineWaveVoice.init sr er) := by
  refine ⟨hsr, Or.inl ?_⟩
  simp [SineWaveVoice.init, ADSR.Quiet, ADSR.setParameters, ADSR.fresh]

theorem VoiceInv.startVoice (env : MathEnv R) (hhz : ∀ n, env.getMidiNoteInHertz n ≠ 0)
    (hpi : env.pi ≠ 0) (snd : Nat) (n : Int) (vel : R) {v : SineWaveVoice R} (h : VoiceInv v) :
    VoiceInv (SineWaveVoice.startVoice env snd n vel v) := by
  obtain ⟨hsr, hq⟩ := h
  have hamp : v.adsr.currentAmplitude = 0 := by
    rcases hq with hq | hq
    · exact hq.1
    · exact hq.1
  refine ⟨hsr, Or.inr ?_⟩
  have := startVoice_sounding env n (hhz n) hpi snd vel v hsr
  refine ⟨?_, ?_, this.1, this.2⟩
  · simp [SineWaveVoice.startVoice, SineWaveVoice.startNote, ADSR.noteOn, ADSR.setParameters, hamp]
  · simp [SineWaveVoice.startVoice, SineWaveVoice.startNote, ADSR.noteOn]

theorem VoiceInv.stopNote (vel : R) (allow : Bool) {v : SineWaveVoice R} (h : VoiceInv v) :
    VoiceInv (SineWaveVoice.stopNote vel allow v) := by
  obtain ⟨hsr, hq⟩ := h
  have hq' : v.adsr.noteOff.Quiet := by
    rcases hq with hq | ⟨h0, h1, _, _⟩
    · exact hq.noteOff
    · simp [ADSR.noteOff, h1, ADSR.Quiet, h0]
  refine ⟨?_, Or.inl ?_⟩
  · cases allow <;> simp only [SineWaveVoice.stopNote, SineWaveVoice.clearCurrentNote]
    · exact hsr
    · split_ifs <;> exact hsr
  · cases allow <;> simp only [SineWaveVoice.stopNote, SineWaveVoice.clearCurrentNote]
    · exact hq'
    · split_ifs <;> exact hq'

theorem VoiceInv.render (env : MathEnv R) (b : AudioBuffer R) (s N : Int)
    {v : SineWaveVoice R} (h : VoiceInv v) :
    VoiceInv (SineWaveVoice.renderNextBlock env v b s N).1 := by
  obtain ⟨hsr, hq⟩ := h
  by_cases hd : v.angleDelta = 0
  · rw [renderNextBlock_silent env v b s N hd]
    rcases hq with hq | ⟨_, _, h2, _⟩
    · exact ⟨hsr, Or.inl (hq.ticks _)⟩
    · exact absurd hd h2
  · by_cases ht : 0 < v.tailOff
    · have hq' : v.adsr.Quiet := by
        rcases hq with hq | ⟨_, _, _, h3⟩
        · exact hq
        · rw [h3] at ht
          exact absurd ht (lt_irrefl _)
      rcases le_or_lt N 0 with hN | hN
      · simp only [SineWaveVoice.renderNextBlock, hd, ht, ne_eq, not_false_eq_true, if_true,
          tailOffLoop_nonpos env v b s N hN]
        rw [applyEnvelopeToBuffer_neg _ _ _ _ (by omega), envelopeLoop_nonpos _ _ _ _ _ (by omega)]
        exact ⟨hsr, Or.inl hq'⟩
      · obtain ⟨n, rfl⟩ : ∃ n : Nat, N = n := ⟨N.toNat, by omega⟩
        rcases tailOff_threshold_cases v.tailOff n with hk | ⟨m, hm, hk, hb⟩
        · rw [renderNextBlock_tailOff env v b s n hd ht hk]
          exact ⟨hsr, Or.inl hq'⟩
        · obtain ⟨r, rfl⟩ : ∃ r : Nat, n = m + 1 + r := ⟨n - (m + 1), by omega⟩
          rw [renderNextBlock_break env v b s m r hd ht hk hb]
          exact ⟨hsr, Or.inl ((hq'.ticks r).ticks r)⟩
    · rw [renderNextBlock_sustain env v b s N hd ht]
      refine ⟨hsr, ?_⟩
      rcases hq with hq | ⟨h0, h1, h2, h3⟩
      · exact Or.inl hq
      · exact Or.inr ⟨h0, h1, h2, h3⟩

theorem Reachable.inv (env : MathEnv R) (hhz : ∀ n, env.getMidiNoteInHertz n ≠ 0)
    (hpi : env.pi ≠ 0) (sr er : R) (hsr : sr ≠ 0) {v : SineWaveVoice R}
    (h : Reachable env sr er v) : VoiceInv v := by
  induction h with
  | init => exact VoiceInv.init sr er hsr
  | startVoice snd n vel _ ih => exact VoiceInv.startVoice env hhz hpi snd n vel ih
  | stopNote vel allow _ ih => exact VoiceInv.stopNote vel allow ih
  | render b s N _ ih => exact VoiceInv.render env b s N ih
  | setSampleRate newRate hnew _ ih => exact ⟨hnew, ih.2⟩

/-- With a silent envelope the envelope-scaled loop adds nothing. -/
theorem envelopeOutput_quiet (env : MathEnv R) (v : SineWaveVoice R) (b : AudioBuffer R)
    (s : Int) (n : Nat) (hq : v.adsr.Quiet) : envelopeOutput env v b s n = b := by
  refine AudioBuffer.ext_data rfl ?_
  intro c j
  simp only [envelopeOutput, hq.tickValue, mul_zero, add_zero, ite_self]

/-! ### The tail-off count -/

theorem tailOff_pow_above (k : Nat) (hk : k ≤ 527) : (5 / 1000 : R) < (99 / 100) ^ k := by
  have h1 : (5 / 1000 : R) < (99 / 100) ^ 527 := by norm_num
  have h2 : (99 / 100 : R) ^ 527 ≤ (99 / 100) ^ k :=
    pow_le_pow_of_le_one (by norm_num) (by norm_num) hk
  exact lt_of_lt_of_le h1 h2

theorem tailOff_pow_below : (99 / 100 : R) ^ 528 ≤ 5 / 1000 := by norm_num

/-- A sounding voice whose tail-off is `0.99 ^ j` keeps everything but phase and
tail-off over a block that ends within the first 527 tail-off samples. -/
theorem tailOff_keeps (env : MathEnv R) (w : SineWaveVoice R) (b : AudioBuffer R) (s : Int)
    (j n : Nat) (hd : w.angleDelta ≠ 0) (ht : w.tailOff = (99 / 100) ^ j) (hjn : j + n ≤ 527) :
    (SineWaveVoice.renderNextBlock env w b s n).1
      = { w with currentAngle := w.currentAngle + n * w.angleDelta
                 tailOff := (99 / 100) ^ (j + n) } := by
  have hpos : 0 < w.tailOff := by rw [ht]; positivity
  have hk : ∀ k : Nat, 1 ≤ k → k ≤ n → 5 / 1000 < w.tailOff * (99 / 100 : R) ^ k := by
    intro k _ h2
    rw [ht, ← pow_add]
    exact tailOff_pow_above _ (by omega)
  rw [renderNextBlock_tailOff env w b s n hd hpos hk, ht, ← pow_add]

/-- A sounding voice whose tail-off is `0.99 ^ j` is freed by a block that reaches
the 528th tail-off sample. -/
theorem tailOff_frees (env : MathEnv R) (w : SineWaveVoice R) (b : AudioBuffer R) (s : Int)
    (j n : Nat) (hd : w.angleDelta ≠ 0) (ht : w.tailOff = (99 / 100) ^ j) (hj : j ≤ 527)
    (hn : 528 ≤ j + n) :
    (SineWaveVoice.renderNextBlock env w b s n).1.assignedNote = none
      ∧ (SineWaveVoice.renderNextBlock env w b s n).1.angleDelta = 0 := by
  have hpos : 0 < w.tailOff := by rw [ht]; positivity
  obtain ⟨m, hm⟩ : ∃ m : Nat, j + m = 527 := ⟨527 - j, by omega⟩
  obtain ⟨r, rfl⟩ : ∃ r : Nat, n = m + 1 + r := ⟨n - (m + 1), by omega⟩
  have hk : ∀ k : Nat, 1 ≤ k → k ≤ m → 5 / 1000 < w.tailOff * (99 / 100 : R) ^ k := by
    intro k _ h2
    rw [ht, ← pow_add]
    exact tailOff_pow_above _ (by omega)
  have hb : w.tailOff * (99 / 100 : R) ^ (m + 1) ≤ 5 / 1000 := by
    rw [ht, ← pow_add]
    have : j + (m + 1) = 528 := by omega
    rw [this]
    exact tailOff_pow_below
  rw [renderNextBlock_break env w b s m r hd hpos hk hb]
  exact ⟨rfl, rfl⟩

/-- Rendering never assigns a note, and a voice without phase increment stays so. -/
theorem renderNextBlock_freed (env : MathEnv R) (w : SineWaveVoice R) (b : AudioBuffer R)
    (s N : Int) (hd : w.angleDelta = 0) (hn : w.assignedNote = none) :
    (SineWaveVoice.renderNextBlock env w b s N).1.assignedNote = none
      ∧ (SineWaveVoice.renderNextBlock env w b s N).1.angleDelta = 0 := by
  rw [renderNextBlock_silent env w b s N hd]
  exact ⟨hn, hd⟩

theorem renderBlocks_freed (env : MathEnv R) (blocks : List (AudioBuffer R × Int × Nat))
    (w : SineWaveVoice R) (hd : w.angleDelta = 0) (hn : w.assignedNote = none) :
    (renderBlocks env w blocks).assignedNote = none := by
  induction blocks generalizing w with
  | nil => exact hn
  | cons blk rest ih =>
    have := renderNextBlock_freed env w blk.1 blk.2.1 blk.2.2 hd hn
    exact ih _ this.2 this.1

theorem renderBlocks_keeps (env : MathEnv R) (blocks : List (AudioBuffer R × Int × Nat))
    (w : SineWaveVoice R) (j : Nat) (hd : w.angleDelta ≠ 0) (ht : w.tailOff = (99 / 100) ^ j)
    (h : j + totalSamples blocks ≤ 527) :
    (renderBlocks env w blocks).assignedNote = w.assignedNote
      ∧ (renderBlocks env w blocks).tailOff = (99 / 100) ^ (j + totalSamples blocks)
      ∧ (renderBlocks env w blocks).angleDelta ≠ 0 := by
  induction blocks generalizing w j with
  | nil => exact ⟨rfl, by simpa [totalSamples, renderBlocks] using ht, hd⟩
  | cons blk rest ih =>
    simp only [totalSamples] at h
    have hk := tailOff_keeps env w blk.1 blk.2.1 j blk.2.2 hd ht (by omega)
    have := ih (SineWaveVoice.renderNextBlock env w blk.1 blk.2.1 blk.2.2).1 (j + blk.2.2)
      (by rw [hk]; exact hd) (by rw [hk]) (by omega)
    simp only [renderBlocks, totalSamples]
    refine ⟨?_, ?_, this.2.2⟩
    · rw [this.1, hk]
    · rw [this.2.1, add_assoc]

theorem renderBlocks_frees (env : MathEnv R) (blocks : List (AudioBuffer R × Int × Nat))
    (w : SineWaveVoice R) (j : Nat) (hd : w.angleDelta ≠ 0) (ht : w.tailOff = (99 / 100) ^ j)
    (hj : j ≤ 527) (h : 528 ≤ j + totalSamples blocks) :
    (renderBlocks env w blocks).assignedNote = none := by
  induction blocks generalizing w j with
  | nil => simp [totalSamples] at h; omega
  | cons blk rest ih =>
    simp only [totalSamples] at h
    simp only [renderBlocks]
    rcases Nat.lt_or_ge (j + blk.2.2) 528 with hlt | hge
    · have hk := tailOff_keeps env w blk.1 blk.2.1 j blk.2.2 hd ht (by omega)
      exact ih (SineWaveVoice.renderNextBlock env w blk.1 blk.2.1 blk.2.2).1 (j + blk.2.2)
        (by rw [hk]; exact hd) (by rw [hk]) (by omega) (by omega)
    · have hf := tailOff_frees env w blk.1 blk.2.1 j blk.2.2 hd ht hj hge
      exact renderBlocks_freed env rest _ hf.2 hf.1

/-- The voice of the release scenario is sounding, holds note 60, and starts its
tail-off at 1. -/
theorem releasedVoice_state (env : MathEnv R) (hhz : env.getMidiNoteInHertz 60 ≠ 0)
    (hpi : env.pi ≠ 0) (snd : Nat) (v : SineWaveVoice R) (hsr : v.sampleRate ≠ 0)
    (b0 : AudioBuffer R) (s0 : Int) (x : R) :
    (releasedVoice env snd v b0 s0 x).angleDelta ≠ 0
      ∧ (releasedVoice env snd v b0 s0 x).tailOff = (99 / 100) ^ 0
      ∧ (releasedVoice env snd v b0 s0 x).assignedNote = some 60 := by
  have h := startVoice_sounding env 60 hhz hpi snd 1 v hsr
  have ht : ¬ 0 < (SineWaveVoice.startVoice env snd 60 1 v).tailOff := by simp [h.2]
  simp only [releasedVoice, renderNextBlock_sustain env _ b0 s0 4800 h.1 ht,
    SineWaveVoice.stopNote, h.2, if_true, pow_zero]
  refine ⟨h.1, trivial, ?_⟩
  simp [SineWaveVoice.startVoice, SineWaveVoice.startNote]

theorem totalSamples_append (xs ys : List (AudioBuffer R × Int × Nat)) :
    totalSamples (xs ++ ys) = totalSamples xs + totalSamples ys := by
  induction xs with
  | nil => simp [totalSamples]
  | cons x xs ih => simp [totalSamples, ih, add_assoc]

/-- When the tail-off ends inside a block started at a positive sample position and
the envelope is silent, position 0 of every channel is scaled to 0. -/
theorem break_scales_front (env : MathEnv R) (v : SineWaveVoice R) (b : AudioBuffer R)
    (s : Int) (m r : Nat) (hd : v.angleDelta ≠ 0) (ht : 0 < v.tailOff)
    (h : ∀ k : Nat, 1 ≤ k → k ≤ m → 5 / 1000 < v.tailOff * (99 / 100 : R) ^ k)
    (hb : v.tailOff * (99 / 100 : R) ^ (m + 1) ≤ 5 / 1000)
    (hq : v.adsr.Quiet) (hr : 1 ≤ r) (hs : 0 < s) (c : Nat) (hc : c < b.numChannels) :
    (SineWaveVoice.renderNextBlock env v b s ((m + 1 + r : Nat) : Int)).2.data c 0 = 0 := by
  rw [renderNextBlock_break env v b s m r hd ht h hb]
  have e1 : ¬ (s + ((m + 1 : Nat) : Int) ≤ 0 ∧ (0 : Int) < s + ((m + 1 : Nat) : Int) + r) := by
    omega
  have e2 : (0 : Int) ≤ 0 ∧ (0 : Int) < 0 + (r : Int) := by omega
  have e3 : (scaledOutput v.adsr (tailOffOutput env v b s (m + 1)) 0 r).numChannels
      = b.numChannels := rfl
  have e4 : (tailOffOutput env v b s (m + 1)).numChannels = b.numChannels := rfl
  simp only [envelopeOutput, e1, and_false, if_false]
  simp only [scaledOutput, e4, hc, e2, and_self, if_true, hq.tickValue, mul_zero]

theorem ADSR.ticks_add (m k : Nat) (a : ADSR R) :
    ADSR.ticks (m + k) a = ADSR.ticks k (ADSR.ticks m a) := by
  induction m generalizing a with
  | zero => simp [ADSR.ticks]
  | succ m ih =>
    have e : m + 1 + k = (m + k) + 1 := by omega
    rw [e, ADSR.ticks, ADSR.ticks, ih]

/-- A silent envelope is a fixed point of `noteOff`. -/
theorem ADSR.Quiet.noteOff_eq {a : ADSR R} (h : a.Quiet) : a.noteOff = a := by
  obtain ⟨h0, h1 | ⟨h1, h2⟩⟩ := h
  · simp [ADSR.noteOff, h1]
  · cases a
    simp_all [ADSR.noteOff]

/-- What a render can do to the voice: it moves the phase, scales the tail-off
(never to 0), ticks the envelope some number of times, and possibly frees the note. -/
theorem renderNextBlock_shape (env : MathEnv R) (v : SineWaveVoice R) (b : AudioBuffer R)
    (s N : Int) :
    ∃ (x t : R) (k : Nat), (v.tailOff ≠ 0 → t ≠ 0)
      ∧ ((SineWaveVoice.renderNextBlock env v b s N).1
            = { v with currentAngle := x, tailOff := t, adsr := ADSR.ticks k v.adsr }
        ∨ (SineWaveVoice.renderNextBlock env v b s N).1
            = { v with currentAngle := x, tailOff := t, adsr := ADSR.ticks k v.adsr,
                       angleDelta := 0, assignedNote := none, assignedSound := none }) := by
  by_cases hd : v.angleDelta = 0
  · rw [renderNextBlock_silent env v b s N hd]
    exact ⟨v.currentAngle, v.tailOff, N.toNat, fun h => h, Or.inl rfl⟩
  · by_cases ht : 0 < v.tailOff
    · rcases le_or_lt N 0 with hN | hN
      · refine ⟨v.currentAngle, v.tailOff, 0, fun h => h, Or.inl ?_⟩
        simp only [SineWaveVoice.renderNextBlock, hd, ht, ne_eq, not_false_eq_true, if_true,
          tailOffLoop_nonpos env v b s N hN]
        rw [applyEnvelopeToBuffer_neg _ _ _ _ (by omega), envelopeLoop_nonpos _ _ _ _ _ (by omega)]
        rfl
      · obtain ⟨n, rfl⟩ : ∃ n : Nat, N = n := ⟨N.toNat, by omega⟩
        have hne : ∀ i : Nat, v.tailOff * (99 / 100 : R) ^ i ≠ 0 := fun i =>
          mul_ne_zero (ne_of_gt ht) (pow_ne_zero _ (by norm_num))
        rcases tailOff_threshold_cases v.tailOff n with hk | ⟨m, hm, hk, hb⟩
        · rw [renderNextBlock_tailOff env v b s n hd ht hk]
          exact ⟨_, _, 0, fun _ => hne n, Or.inl rfl⟩
        · obtain ⟨r, rfl⟩ : ∃ r : Nat, n = m + 1 + r := ⟨n - (m + 1), by omega⟩
          rw [renderNextBlock_break env v b s m r hd ht hk hb]
          refine ⟨v.currentAngle + (m + 1 : Nat) * v.angleDelta,
            v.tailOff * (99 / 100) ^ (m + 1), r + r, fun _ => hne (m + 1), Or.inr ?_⟩
          rw [ADSR.ticks_add]
    · rw [renderNextBlock_sustain env v b s N hd ht]
      exact ⟨_, _, 0, fun h => h, Or.inl rfl⟩

/-! ### A released voice -/

/-- With the envelope at amplitude 0, `stopNote` leaves it silent for good. -/
theorem stopNote_quiet (x : R) (allow : Bool) (v : SineWaveVoice R)
    (h0 : v.adsr.currentAmplitude = 0) : (SineWaveVoice.stopNote x allow v).adsr.Quiet := by
  have hq : v.adsr.noteOff.Quiet := by
    by_cases hp : v.adsr.phase = .idle
    · simp [ADSR.noteOff, hp, ADSR.Quiet, h0]
    · simp [ADSR.noteOff, hp, ADSR.Quiet, h0]
  cases allow <;> simp only [SineWaveVoice.stopNote, SineWaveVoice.clearCurrentNote]
  · exact hq
  · split_ifs <;> exact hq

/-- A voice whose tail-off flag is set and whose envelope is silent is left as it is
by `stopNote (_, true)`. -/
theorem stopNote_fixed (x : R) (w : SineWaveVoice R) (ht : w.tailOff ≠ 0)
    (hq : w.adsr.Quiet) : SineWaveVoice.stopNote x true w = w := by
  simp only [SineWaveVoice.stopNote, ht, if_true, if_false, hq.noteOff_eq]

theorem renderNextBlock_released (env : MathEnv R) (w : SineWaveVoice R) (b : AudioBuffer R)
    (s N : Int) (ht : w.tailOff ≠ 0) (hq : w.adsr.Quiet) :
    (SineWaveVoice.renderNextBlock env w b s N).1.tailOff ≠ 0
      ∧ (SineWaveVoice.renderNextBlock env w b s N).1.adsr.Quiet := by
  obtain ⟨x, t, k, h, hr | hr⟩ := renderNextBlock_shape env w b s N
  · rw [hr]
    exact ⟨h ht, hq.ticks k⟩
  · rw [hr]
    exact ⟨h ht, hq.ticks k⟩

theorem renderBlocks_released (env : MathEnv R) (blocks : List (AudioBuffer R × Int × Nat))
    (w : SineWaveVoice R) (ht : w.tailOff ≠ 0) (hq : w.adsr.Quiet) :
    (renderBlocks env w blocks).tailOff ≠ 0 ∧ (renderBlocks env w blocks).adsr.Quiet := by
  induction blocks generalizing w with
  | nil => exact ⟨ht, hq⟩
  | cons blk rest ih =>
    have := renderNextBlock_released env w blk.1 blk.2.1 blk.2.2 ht hq
    exact ih _ this.1 this.2

theorem VoiceInv.amplitude {v : SineWaveVoice R} (h : VoiceInv v) :
    v.adsr.currentAmplitude = 0 := by
  rcases h.2 with hq | hq
  · exact hq.1
  · exact hq.1

/-- A note 69 that is hard-stopped after one rendered sample: the phase increment is
0, the phase has advanced once and the level is the one set by `startNote`. -/
theorem stopped_after_one_sample (env : MathEnv R) (hhz : env.getMidiNoteInHertz 69 ≠ 0)
    (hpi : env.pi ≠ 0) (sr er : R) (hsr : sr ≠ 0) (b : AudioBuffer R) :
    (SineWaveVoice.stopNote 1 false
        (SineWaveVoice.renderNextBlock env
          (SineWaveVoice.startVoice env 0 69 1 (SineWaveVoice.init sr er)) b 0 1).1).angleDelta = 0
      ∧ (SineWaveVoice.stopNote 1 false
        (SineWaveVoice.renderNextBlock env
          (SineWaveVoice.startVoice env 0 69 1 (SineWaveVoice.init sr er)) b 0 1).1).currentAngle
          = env.getMidiNoteInHertz 69 / sr * (2 * env.pi)
      ∧ (SineWaveVoice.stopNote 1 false
        (SineWaveVoice.renderNextBlock env
          (SineWaveVoice.startVoice env 0 69 1 (SineWaveVoice.init sr er)) b 0 1).1).level
          = 15 / 100 := by
  have hs := startVoice_sounding env 69 hhz hpi 0 1 (SineWaveVoice.init sr er) hsr
  have ht : ¬ 0 < (SineWaveVoice.startVoice env 0 69 1 (SineWaveVoice.init sr er)).tailOff := by
    simp [hs.2]
  rw [renderNextBlock_sustain env _ b 0 1 hs.1 ht]
  have e : (1 : Int).toNat = 1 := rfl
  simp [SineWaveVoice.stopNote, SineWaveVoice.clearCurrentNote, SineWaveVoice.startVoice,
    SineWaveVoice.startNote, SineWaveVoice.init, MathEnv.twoPi, e]

end Lemmas

/-! ## The claims -/

section Claims

variable {R : Type} [LinearOrderedField R]

open SineWaveVoice

/-- C1: for every MIDI note number `n` and every positive sample rate, `startNote`
leaves `angleDelta = 2 * pi * getMidiNoteInHertz n / sampleRate`; a second voice with
the same sample rate, whatever its other fields and whatever the velocity, gets the
same `angleDelta`. -/
theorem startNote_angleDelta (env : MathEnv R) (n : Int) (velocity velocity' : R)
    (v v' : SineWaveVoice R) (hsr : 0 < v.sampleRate) (hsame : v'.sampleRate = v.sampleRate) :
    (startNote env n velocity v).angleDelta
        = 2 * env.pi * env.getMidiNoteInHertz n / v.sampleRate
      ∧ (startNote env n velocity' v').angleDelta = (startNote env n velocity v).angleDelta := by
  have _ := hsr
  simp only [startNote, MathEnv.twoPi, hsame]
  constructor
  · ring
  · trivial

theorem startNote_angleDelta_witness :
    0 < (init (48000 : ℝ) 44100).sampleRate
      ∧ (stopNote (1 : ℝ) true (init (48000 : ℝ) 44100)).sampleRate
          = (init (48000 : ℝ) 44100).sampleRate
      ∧ ((startNote ⟨Real.sin, Real.pi, fun n => 440 * (2 : ℝ) ^ (((n : ℝ) - 69) / 12)⟩ 69 1
            (init (48000 : ℝ) 44100)).angleDelta
          = 2 * Real.pi * (440 * (2 : ℝ) ^ ((((69 : Int) : ℝ) - 69) / 12)) / 48000
        ∧ (startNote ⟨Real.sin, Real.pi, fun n => 440 * (2 : ℝ) ^ (((n : ℝ) - 69) / 12)⟩ 69
            (1 / 2) (stopNote (1 : ℝ) true (init (48000 : ℝ) 44100))).angleDelta
          = (startNote ⟨Real.sin, Real.pi, fun n => 440 * (2 : ℝ) ^ (((n : ℝ) - 69) / 12)⟩ 69 1
            (init (48000 : ℝ) 44100)).angleDelta) :=
  ⟨by simp [init], by simp [stopNote, init],
    startNote_angleDelta ⟨Real.sin, Real.pi, fun n => 440 * (2 : ℝ) ^ (((n : ℝ) - 69) / 12)⟩
      69 1 (1 / 2) (init 48000 44100) (stopNote 1 true (init 48000 44100))
      (by simp [init]) (by simp [stopNote, init])⟩

/-- C5: whatever the voice was doing (in particular in the middle of a tail-off),
`startNote` with velocity `v` sets `currentAngle` to 0, `level` to `v * 0.15` and
`tailOff` to 0. -/
theorem startNote_resets (env : MathEnv R) (n : Int) (velocity : R) (v : SineWaveVoice R) :
    (startNote env n velocity v).currentAngle = 0
      ∧ (startNote env n velocity v).level = velocity * (15 / 100)
      ∧ (startNote env n velocity v).tailOff = 0 := by
  simp [startNote]

/-- C3: `stopNote (_, true)` is idempotent.  For every voice state, a second call
right after the first changes nothing.  For every state the voice can reach, a
second call after any blocks rendered in between changes nothing either: phase,
increment, level, tail-off, assignment and envelope all stay as they were.  The
same holds from any state at all when the voice is still sounding after the block
rendered in between. -/
theorem stopNote_tailOff_idempotent (env : MathEnv R) (v : SineWaveVoice R) (v1 v2 : R)
    (sr er : R) (blocks : List (AudioBuffer R × Int × Nat)) (b : AudioBuffer R) (s N : Int) :
    stopNote v2 true (stopNote v1 true v) = stopNote v1 true v
      ∧ ((∀ n, env.getMidiNoteInHertz n ≠ 0) → env.pi ≠ 0 → sr ≠ 0 → Reachable env sr er v →
          stopNote v2 true (renderBlocks env (stopNote v1 true v) blocks)
            = renderBlocks env (stopNote v1 true v) blocks)
      ∧ ((renderNextBlock env (stopNote v1 true v) b s N).1.angleDelta ≠ 0 →
          stopNote v2 true (renderNextBlock env (stopNote v1 true v) b s N).1
            = (renderNextBlock env (stopNote v1 true v) b s N).1) := by
  have hne := stopNote_tailOff_ne_zero v1 v
  have hadsr : (stopNote v1 true v).adsr.noteOff = (stopNote v1 true v).adsr := by
    simp only [stopNote]
    exact ADSR.noteOff_noteOff _
  refine ⟨?_, ?_, ?_⟩
  · generalize stopNote v1 true v = u at hne hadsr
    simp only [stopNote, hne, if_true, if_false, hadsr]
  · intro hhz hpi hsr hv
    have hq := stopNote_quiet v1 true v (Reachable.inv env hhz hpi sr er hsr hv).amplitude
    have := renderBlocks_released env blocks _ hne hq
    exact stopNote_fixed v2 _ this.1 this.2
  · intro h
    obtain ⟨x, t, hr, ht⟩ := renderNextBlock_sounding env _ b s N h
    rw [hr]
    have ht' := ht hne
    generalize stopNote v1 true v = u at hadsr
    simp only [stopNote, ht', if_true, if_false, hadsr]

theorem stopNote_tailOff_idempotent_witness :
    (∀ n : Int, (440 * (2 : ℝ) ^ (((n : ℝ) - 69) / 12)) ≠ 0) ∧ Real.pi ≠ 0 ∧ (48000 : ℝ) ≠ 0
      ∧ Reachable ⟨Real.sin, Real.pi, fun n => 440 * (2 : ℝ) ^ (((n : ℝ) - 69) / 12)⟩
          48000 44100
          (startVoice ⟨Real.sin, Real.pi, fun n => 440 * (2 : ℝ) ^ (((n : ℝ) - 69) / 12)⟩
            0 69 1 (init 48000 44100))
      ∧ stopNote (1 / 2) true
          (renderBlocks ⟨Real.sin, Real.pi, fun n => 440 * (2 : ℝ) ^ (((n : ℝ) - 69) / 12)⟩
            (stopNote 1 true
              (startVoice ⟨Real.sin, Real.pi, fun n => 440 * (2 : ℝ) ^ (((n : ℝ) - 69) / 12)⟩
                0 69 1 (init 48000 44100)))
            [(⟨2, fun _ _ => 0⟩, 0, 100), (⟨2, fun _ _ => 0⟩, 100, 600)])
        = renderBlocks ⟨Real.sin, Real.pi, fun n => 440 * (2 : ℝ) ^ (((n : ℝ) - 69) / 12)⟩
            (stopNote 1 true
              (startVoice ⟨Real.sin, Real.pi, fun n => 440 * (2 : ℝ) ^ (((n : ℝ) - 69) / 12)⟩
                0 69 1 (init 48000 44100)))
            [(⟨2, fun _ _ => 0⟩, 0, 100), (⟨2, fun _ _ => 0⟩, 100, 600)] :=
  ⟨fun _ => by positivity, Real.pi_ne_zero, by norm_num,
    Reachable.startVoice 0 69 1 Reachable.init,
    (stopNote_tailOff_idempotent _ _ 1 (1 / 2) 48000 44100 _ ⟨2, fun _ _ => 0⟩ 0 0).2.1
      (fun _ => by positivity) Real.pi_ne_zero (by norm_num)
      (Reachable.startVoice 0 69 1 Reachable.init)⟩

/-- C4 (as the code has it): `stopNote (_, false)` frees the voice at once, from any
state: the note and sound assignment are cleared and the phase increment
`angleDelta` is set to 0; the amplitude `level` is left as it was. -/
theorem stopNote_immediate (velocity : R) (v : SineWaveVoice R) :
    (stopNote velocity false v).assignedNote = none
      ∧ (stopNote velocity false v).assignedSound = none
      ∧ (stopNote velocity false v).angleDelta = 0
      ∧ (stopNote velocity false v).level = v.level := by
  simp [stopNote, clearCurrentNote]

/-- C4 as stated fails: after a note started with velocity 1 is stopped with
`allowTailOff = false`, the voice's `level` is still 0.15, not 0. -/
theorem stopNote_immediate_level_kept :
    (stopNote (1 : ℝ) false
      (startVoice ⟨Real.sin, Real.pi, fun n => 440 * (2 : ℝ) ^ (((n : ℝ) - 69) / 12)⟩
        0 69 1 (init 48000 44100))).level = 15 / 100
      ∧ (stopNote (1 : ℝ) false
      (startVoice ⟨Real.sin, Real.pi, fun n => 440 * (2 : ℝ) ^ (((n : ℝ) - 69) / 12)⟩
        0 69 1 (init 48000 44100))).level ≠ 0 := by
  constructor
  · simp [stopNote, clearCurrentNote, startVoice, startNote]
  · simp [stopNote, clearCurrentNote, startVoice, startNote]

/-- C9: block splitting is transparent for a sustaining voice.  For a voice with
`angleDelta ≠ 0`, `tailOff = 0` and an envelope that is not idle, rendering `a > 0`
samples at `startSample` and then `c > 0` samples at `startSample + a` leaves the
same buffer and the same voice as rendering `a + c` samples at `startSample`. -/
theorem renderNextBlock_split (env : MathEnv R) (v : SineWaveVoice R) (b : AudioBuffer R)
    (startSample a c : Int) (hd : v.angleDelta ≠ 0) (ht : v.tailOff = 0)
    (hidle : v.adsr.phase ≠ EnvelopePhase.idle) (ha : 0 < a) (hc : 0 < c) :
    renderNextBlock env (renderNextBlock env v b startSample a).1
        (renderNextBlock env v b startSample a).2 (startSample + a) c
      = renderNextBlock env v b startSample (a + c) := by
  have _ := hidle
  have ht' : ¬ 0 < v.tailOff := by simp [ht]
  obtain ⟨n, rfl⟩ : ∃ n : Nat, a = n := ⟨a.toNat, by omega⟩
  obtain ⟨m, rfl⟩ : ∃ m : Nat, c = m := ⟨c.toNat, by omega⟩
  have e : ((n : Int) + (m : Int)).toNat = n + m := by omega
  rw [renderNextBlock_sustain env v b startSample n hd ht',
    renderNextBlock_sustain env v b startSample _ hd ht']
  simp only [Int.toNat_ofNat, e]
  rw [renderNextBlock_sustain env { v with currentAngle := v.currentAngle + n * v.angleDelta }
    _ _ _ hd ht']
  simp only [Int.toNat_ofNat, sustainOutput_append, Prod.mk.injEq, and_true]
  congr 1
  push_cast; ring

theorem renderNextBlock_split_witness :
    (startVoice ⟨Real.sin, Real.pi, fun n => 440 * (2 : ℝ) ^ (((n : ℝ) - 69) / 12)⟩
        0 69 1 (init 48000 44100)).angleDelta ≠ 0
      ∧ (startVoice ⟨Real.sin, Real.pi, fun n => 440 * (2 : ℝ) ^ (((n : ℝ) - 69) / 12)⟩
        0 69 1 (init 48000 44100)).tailOff = 0
      ∧ (startVoice ⟨Real.sin, Real.pi, fun n => 440 * (2 : ℝ) ^ (((n : ℝ) - 69) / 12)⟩
        0 69 1 (init 48000 44100)).adsr.phase ≠ EnvelopePhase.idle
      ∧ (0 : Int) < 3 ∧ (0 : Int) < 5
      ∧ renderNextBlock ⟨Real.sin, Real.pi, fun n => 440 * (2 : ℝ) ^ (((n : ℝ) - 69) / 12)⟩
          (renderNextBlock ⟨Real.sin, Real.pi, fun n => 440 * (2 : ℝ) ^ (((n : ℝ) - 69) / 12)⟩
            (startVoice ⟨Real.sin, Real.pi, fun n => 440 * (2 : ℝ) ^ (((n : ℝ) - 69) / 12)⟩
              0 69 1 (init 48000 44100)) ⟨2, fun _ _ => 0⟩ 7 3).1
          (renderNextBlock ⟨Real.sin, Real.pi, fun n => 440 * (2 : ℝ) ^ (((n : ℝ) - 69) / 12)⟩
            (startVoice ⟨Real.sin, Real.pi, fun n => 440 * (2 : ℝ) ^ (((n : ℝ) - 69) / 12)⟩
              0 69 1 (init 48000 44100)) ⟨2, fun _ _ => 0⟩ 7 3).2 (7 + 3) 5
        = renderNextBlock ⟨Real.sin, Real.pi, fun n => 440 * (2 : ℝ) ^ (((n : ℝ) - 69) / 12)⟩
            (startVoice ⟨Real.sin, Real.pi, fun n => 440 * (2 : ℝ) ^ (((n : ℝ) - 69) / 12)⟩
              0 69 1 (init 48000 44100)) ⟨2, fun _ _ => 0⟩ 7 (3 + 5) :=
  ⟨(startVoice_sounding _ 69 (by norm_num) Real.pi_ne_zero 0 1 _ (by norm_num [init])).1,
    (startVoice_sounding _ 69 (by norm_num) Real.pi_ne_zero 0 1 _ (by norm_num [init])).2,
    by simp [startVoice, startNote, ADSR.noteOn], by decide, by decide,
    renderNextBlock_split _ _ _ 7 3 5
      (startVoice_sounding _ 69 (by norm_num) Real.pi_ne_zero 0 1 _ (by norm_num [init])).1
      (startVoice_sounding _ 69 (by norm_num) Real.pi_ne_zero 0 1 _ (by norm_num [init])).2
      (by simp [startVoice, startNote, ADSR.noteOn]) (by decide) (by decide)⟩

/-- C8 (as the code has it): the phase is advanced by `angleDelta` at every rendered
sample and never wrapped.  For a voice that is silent (`angleDelta = 0`) or not
tailing off, rendering `n` samples leaves `currentAngle + n * angleDelta`.  For a
sounding voice that is tailing off it leaves `currentAngle + m * angleDelta`, where
`m` is the first sample (counted from 1) at which `tailOff * 0.99 ^ m ≤ 0.005`, the
sample at which the voice is freed, or `n` if the block ends before that. -/
theorem renderNextBlock_currentAngle (env : MathEnv R) (v : SineWaveVoice R)
    (b : AudioBuffer R) (startSample : Int) (n : Nat) :
    ((v.angleDelta = 0 ∨ ¬ 0 < v.tailOff) →
        (renderNextBlock env v b startSample n).1.currentAngle
          = v.currentAngle + n * v.angleDelta)
      ∧ (v.angleDelta ≠ 0 → 0 < v.tailOff →
          ∃ m : Nat, m ≤ n ∧ (1 ≤ n → 1 ≤ m)
            ∧ (∀ k : Nat, 1 ≤ k → k < m → 5 / 1000 < v.tailOff * (99 / 100 : R) ^ k)
            ∧ (m < n → v.tailOff * (99 / 100 : R) ^ m ≤ 5 / 1000)
            ∧ (renderNextBlock env v b startSample n).1.currentAngle
                = v.currentAngle + m * v.angleDelta
            ∧ (renderNextBlock env v b startSample n).1.tailOff
                = v.tailOff * (99 / 100) ^ m
            ∧ ((1 ≤ m ∧ v.tailOff * (99 / 100 : R) ^ m ≤ 5 / 1000) →
                (renderNextBlock env v b startSample n).1.angleDelta = 0
                  ∧ (renderNextBlock env v b startSample n).1.assignedNote = none)
            ∧ (¬ (1 ≤ m ∧ v.tailOff * (99 / 100 : R) ^ m ≤ 5 / 1000) →
                (renderNextBlock env v b startSample n).1.angleDelta = v.angleDelta
                  ∧ (renderNextBlock env v b startSample n).1.assignedNote
                      = v.assignedNote)) := by
  constructor
  · intro h
    by_cases hd : v.angleDelta = 0
    · rw [renderNextBlock_silent env v b startSample n hd]
      simp [hd]
    · have ht : ¬ 0 < v.tailOff := h.resolve_left hd
      rw [renderNextBlock_sustain env v b startSample n hd ht]
      simp
  · intro hd ht
    rcases tailOff_threshold_cases v.tailOff n with hk | ⟨m, hm, hk, hb⟩
    · rw [renderNextBlock_tailOff env v b startSample n hd ht hk]
      refine ⟨n, le_rfl, fun h => h, fun k h1 h2 => hk k h1 (le_of_lt h2),
        fun h => absurd h (lt_irrefl _), rfl, rfl, ?_, fun _ => ⟨rfl, rfl⟩⟩
      rintro ⟨h1, h2⟩
      exact absurd h2 (not_le.mpr (hk n h1 le_rfl))
    · obtain ⟨r, rfl⟩ : ∃ r : Nat, n = m + 1 + r := ⟨n - (m + 1), by omega⟩
      rw [renderNextBlock_break env v b startSample m r hd ht hk hb]
      refine ⟨m + 1, hm, fun _ => Nat.succ_le_succ (Nat.zero_le _),
        fun k h1 h2 => hk k h1 (by omega), fun _ => hb, rfl, rfl, fun _ => ⟨rfl, rfl⟩, ?_⟩
      intro h
      exact absurd ⟨Nat.succ_le_succ (Nat.zero_le _), hb⟩ h

/-- C8 as stated fails: a note 69 started at 48 kHz has `currentAngle = 0` and
`0 ≤ angleDelta < 2π`, yet after a block of 110 samples `currentAngle` is
`2π * 121 / 120`, which is not below `2π`. -/
theorem currentAngle_exceeds_twoPi :
    (0 ≤ (startVoice ⟨Real.sin, Real.pi, fun n => 440 * (2 : ℝ) ^ (((n : ℝ) - 69) / 12)⟩
          0 69 1 (init 48000 44100)).currentAngle
      ∧ (startVoice ⟨Real.sin, Real.pi, fun n => 440 * (2 : ℝ) ^ (((n : ℝ) - 69) / 12)⟩
          0 69 1 (init 48000 44100)).currentAngle < 2 * Real.pi
      ∧ 0 ≤ (startVoice ⟨Real.sin, Real.pi, fun n => 440 * (2 : ℝ) ^ (((n : ℝ) - 69) / 12)⟩
          0 69 1 (init 48000 44100)).angleDelta
      ∧ (startVoice ⟨Real.sin, Real.pi, fun n => 440 * (2 : ℝ) ^ (((n : ℝ) - 69) / 12)⟩
          0 69 1 (init 48000 44100)).angleDelta < 2 * Real.pi)
      ∧ (renderNextBlock ⟨Real.sin, Real.pi, fun n => 440 * (2 : ℝ) ^ (((n : ℝ) - 69) / 12)⟩
          (startVoice ⟨Real.sin, Real.pi, fun n => 440 * (2 : ℝ) ^ (((n : ℝ) - 69) / 12)⟩
            0 69 1 (init 48000 44100)) ⟨2, fun _ _ => 0⟩ 0 110).1.currentAngle
          = 2 * Real.pi * (121 / 120)
      ∧ ¬ (renderNextBlock ⟨Real.sin, Real.pi, fun n => 440 * (2 : ℝ) ^ (((n : ℝ) - 69) / 12)⟩
          (startVoice ⟨Real.sin, Real.pi, fun n => 440 * (2 : ℝ) ^ (((n : ℝ) - 69) / 12)⟩
            0 69 1 (init 48000 44100)) ⟨2, fun _ _ => 0⟩ 0 110).1.currentAngle
          < 2 * Real.pi := by
  have hpi := Real.pi_pos
  have hd : (startVoice ⟨Real.sin, Real.pi, fun n => 440 * (2 : ℝ) ^ (((n : ℝ) - 69) / 12)⟩
      0 69 1 (init 48000 44100)).angleDelta = 440 / 48000 * (2 * Real.pi) := by
    simp [startVoice, startNote, init, MathEnv.twoPi]
  have hc : (startVoice ⟨Real.sin, Real.pi, fun n => 440 * (2 : ℝ) ^ (((n : ℝ) - 69) / 12)⟩
      0 69 1 (init 48000 44100)).currentAngle = 0 := by
    simp [startVoice, startNote]
  have hr := renderNextBlock_sustain
    ⟨Real.sin, Real.pi, fun n => 440 * (2 : ℝ) ^ (((n : ℝ) - 69) / 12)⟩
    (startVoice ⟨Real.sin, Real.pi, fun n => 440 * (2 : ℝ) ^ (((n : ℝ) - 69) / 12)⟩
      0 69 1 (init 48000 44100)) ⟨2, fun _ _ => 0⟩ 0 110
    (by rw [hd]; positivity) (by simp [startVoice, startNote])
  have e : (110 : Int).toNat = 110 := rfl
  rw [hr, e]
  simp only [hd, hc, Nat.cast_ofNat]
  refine ⟨⟨le_rfl, by linarith, by positivity, by linarith⟩, by ring, ?_⟩
  intro h
  linarith

/-- C7: a voice whose phase increment is zero renders silence.  In every state the
voice can reach from its construction by note starts, note stops, rendered blocks
and sample-rate changes (so in particular in the state left by `stopNote (_, false)`
after a note was playing, whatever `currentAngle` and `level` then are), with
`angleDelta = 0` and `numSamples > 0`, `renderNextBlock` leaves every sample of every
channel of the buffer unchanged. -/
theorem silent_voice_renders_silence (env : MathEnv R)
    (hhz : ∀ n, env.getMidiNoteInHertz n ≠ 0) (hpi : env.pi ≠ 0) (sr er : R) (hsr : sr ≠ 0)
    (v : SineWaveVoice R) (hv : Reachable env sr er v) (hd : v.angleDelta = 0)
    (b : AudioBuffer R) (startSample numSamples : Int) (hn : 0 < numSamples) :
    (renderNextBlock env v b startSample numSamples).2 = b := by
  have _ := hn
  have hinv := Reachable.inv env hhz hpi sr er hsr hv
  rw [renderNextBlock_silent env v b startSample numSamples hd]
  rcases hinv.2 with hq | ⟨_, _, h2, _⟩
  · exact envelopeOutput_quiet env v b startSample _ hq
  · exact absurd hd h2

theorem silent_voice_renders_silence_witness :
    (∀ n : Int, (440 * (2 : ℝ) ^ (((n : ℝ) - 69) / 12)) ≠ 0) ∧ Real.pi ≠ 0 ∧ (48000 : ℝ) ≠ 0
      ∧ Reachable ⟨Real.sin, Real.pi, fun n => 440 * (2 : ℝ) ^ (((n : ℝ) - 69) / 12)⟩
          48000 44100
          (stopNote 1 false
            (renderNextBlock ⟨Real.sin, Real.pi, fun n => 440 * (2 : ℝ) ^ (((n : ℝ) - 69) / 12)⟩
              (startVoice ⟨Real.sin, Real.pi, fun n => 440 * (2 : ℝ) ^ (((n : ℝ) - 69) / 12)⟩
                0 69 1 (init 48000 44100)) ⟨2, fun _ _ => 0⟩ 0 1).1)
      ∧ (stopNote (1 : ℝ) false
            (renderNextBlock ⟨Real.sin, Real.pi, fun n => 440 * (2 : ℝ) ^ (((n : ℝ) - 69) / 12)⟩
              (startVoice ⟨Real.sin, Real.pi, fun n => 440 * (2 : ℝ) ^ (((n : ℝ) - 69) / 12)⟩
                0 69 1 (init 48000 44100)) ⟨2, fun _ _ => 0⟩ 0 1).1).angleDelta = 0
      ∧ (0 : Int) < 64
      ∧ Real.sin (stopNote (1 : ℝ) false
            (renderNextBlock ⟨Real.sin, Real.pi, fun n => 440 * (2 : ℝ) ^ (((n : ℝ) - 69) / 12)⟩
              (startVoice ⟨Real.sin, Real.pi, fun n => 440 * (2 : ℝ) ^ (((n : ℝ) - 69) / 12)⟩
                0 69 1 (init 48000 44100)) ⟨2, fun _ _ => 0⟩ 0 1).1).currentAngle
          * (stopNote (1 : ℝ) false
            (renderNextBlock ⟨Real.sin, Real.pi, fun n => 440 * (2 : ℝ) ^ (((n : ℝ) - 69) / 12)⟩
              (startVoice ⟨Real.sin, Real.pi, fun n => 440 * (2 : ℝ) ^ (((n : ℝ) - 69) / 12)⟩
                0 69 1 (init 48000 44100)) ⟨2, fun _ _ => 0⟩ 0 1).1).level ≠ 0
      ∧ (renderNextBlock ⟨Real.sin, Real.pi, fun n => 440 * (2 : ℝ) ^ (((n : ℝ) - 69) / 12)⟩
          (stopNote 1 false
            (renderNextBlock ⟨Real.sin, Real.pi, fun n => 440 * (2 : ℝ) ^ (((n : ℝ) - 69) / 12)⟩
              (startVoice ⟨Real.sin, Real.pi, fun n => 440 * (2 : ℝ) ^ (((n : ℝ) - 69) / 12)⟩
                0 69 1 (init 48000 44100)) ⟨2, fun _ _ => 0⟩ 0 1).1)
          ⟨2, fun _ _ => 1⟩ 0 64).2 = ⟨2, fun _ _ => 1⟩ := by
  have hst := stopped_after_one_sample (R := ℝ)
    ⟨Real.sin, Real.pi, fun n => 440 * (2 : ℝ) ^ (((n : ℝ) - 69) / 12)⟩
    (by positivity) Real.pi_ne_zero 48000 44100 (by norm_num) ⟨2, fun _ _ => 0⟩
  have hreach : Reachable ⟨Real.sin, Real.pi, fun n => 440 * (2 : ℝ) ^ (((n : ℝ) - 69) / 12)⟩
      48000 44100
      (stopNote 1 false
        (renderNextBlock ⟨Real.sin, Real.pi, fun n => 440 * (2 : ℝ) ^ (((n : ℝ) - 69) / 12)⟩
          (startVoice ⟨Real.sin, Real.pi, fun n => 440 * (2 : ℝ) ^ (((n : ℝ) - 69) / 12)⟩
            0 69 1 (init 48000 44100)) ⟨2, fun _ _ => 0⟩ 0 1).1) :=
    Reachable.stopNote 1 false
      (Reachable.render ⟨2, fun _ _ => 0⟩ 0 1 (Reachable.startVoice 0 69 1 Reachable.init))
  have hpi := Real.pi_pos
  have hsin : 0 < Real.sin (440 / 48000 * (2 * Real.pi)) :=
    Real.sin_pos_of_pos_of_lt_pi (by positivity) (by linarith)
  refine ⟨fun _ => by positivity, Real.pi_ne_zero, by norm_num, hreach, hst.1, by decide, ?_,
    silent_voice_renders_silence _ (fun _ => by positivity) Real.pi_ne_zero 48000 44100
      (by norm_num) _ hreach hst.1 _ 0 64 (by decide)⟩
  rw [hst.2.1, hst.2.2]
  have e : (440 * (2 : ℝ) ^ ((((69 : Int) : ℝ) - 69) / 12)) / 48000 * (2 * Real.pi)
      = 440 / 48000 * (2 * Real.pi) := by norm_num
  simp only [e]
  positivity

/-- C6 (as the code has it): in the scenario (sample rate 48000, note 60 started at
velocity 1, 4800 samples rendered, then `stopNote (_, true)`), whatever blocks the
following samples are rendered in: while at most 527 further samples have been
rendered the voice keeps note 60 and its amplitude multiplier `tailOff` is `0.99`
to the number of samples rendered, so it does not increase from a sample to the
next; once 528 further samples have been rendered the voice is Free. -/
theorem release_frees_after_528 (env : MathEnv R) (hhz : env.getMidiNoteInHertz 60 ≠ 0)
    (hpi : env.pi ≠ 0) (sound : Nat) (v : SineWaveVoice R) (hsr : v.sampleRate = 48000)
    (b0 : AudioBuffer R) (s0 : Int) (velocity : R)
    (blocks : List (AudioBuffer R × Int × Nat)) (b : AudioBuffer R) (s : Int) :
    (totalSamples blocks ≤ 527 →
        (renderBlocks env (releasedVoice env sound v b0 s0 velocity) blocks).assignedNote
            = some 60
          ∧ (renderBlocks env (releasedVoice env sound v b0 s0 velocity) blocks).tailOff
            = (99 / 100) ^ totalSamples blocks)
      ∧ (totalSamples blocks + 1 ≤ 527 →
          (renderBlocks env (releasedVoice env sound v b0 s0 velocity)
              (blocks ++ [(b, s, 1)])).tailOff
            ≤ (renderBlocks env (releasedVoice env sound v b0 s0 velocity) blocks).tailOff)
      ∧ (528 ≤ totalSamples blocks →
          (renderBlocks env (releasedVoice env sound v b0 s0 velocity) blocks).assignedNote
            = none) := by
  have hsr' : v.sampleRate ≠ 0 := by rw [hsr]; norm_num
  obtain ⟨hd, ht, hn⟩ := releasedVoice_state env hhz hpi sound v hsr' b0 s0 velocity
  refine ⟨fun h => ?_, fun h => ?_, fun h => ?_⟩
  · have := renderBlocks_keeps env blocks _ 0 hd ht (by omega)
    rw [this.1, this.2.1, hn, Nat.zero_add]
    exact ⟨rfl, rfl⟩
  · have h1 := renderBlocks_keeps env blocks _ 0 hd ht (by omega)
    have h2 := renderBlocks_keeps env (blocks ++ [(b, s, 1)]) _ 0 hd ht
      (by rw [totalSamples_append]; simp only [totalSamples]; omega)
    rw [h1.2.1, h2.2.1, totalSamples_append]
    simp only [totalSamples, Nat.zero_add, Nat.add_zero]
    exact pow_le_pow_of_le_one (by norm_num) (by norm_num) (Nat.le_succ _)
  · exact renderBlocks_frees env blocks _ 0 hd ht (by omega) (by omega)

theorem release_frees_after_528_witness :
    (440 * (2 : ℝ) ^ ((((60 : Int) : ℝ) - 69) / 12)) ≠ 0 ∧ Real.pi ≠ 0
      ∧ (init (48000 : ℝ) 44100).sampleRate = 48000
      ∧ (renderBlocks ⟨Real.sin, Real.pi, fun n => 440 * (2 : ℝ) ^ (((n : ℝ) - 69) / 12)⟩
          (releasedVoice ⟨Real.sin, Real.pi, fun n => 440 * (2 : ℝ) ^ (((n : ℝ) - 69) / 12)⟩
            0 (init 48000 44100) ⟨2, fun _ _ => 0⟩ 0 1)
          [(⟨2, fun _ _ => 0⟩, 0, 256), (⟨2, fun _ _ => 0⟩, 256, 256),
            (⟨2, fun _ _ => 0⟩, 512, 256)]).assignedNote = none :=
  ⟨by positivity, Real.pi_ne_zero, rfl,
    (release_frees_after_528 _ (by positivity) Real.pi_ne_zero 0 (init 48000 44100) rfl
      ⟨2, fun _ _ => 0⟩ 0 1 _ ⟨2, fun _ _ => 0⟩ 0).2.2 (by simp [totalSamples])⟩

/-- C6 as stated fails: in the scenario the voice is already Free after 528 further
samples, long before the `0.2 * 48000 = 9600` samples of the release time. -/
theorem release_free_before_9600 :
    (renderNextBlock ⟨Real.sin, Real.pi, fun n => 440 * (2 : ℝ) ^ (((n : ℝ) - 69) / 12)⟩
        (releasedVoice ⟨Real.sin, Real.pi, fun n => 440 * (2 : ℝ) ^ (((n : ℝ) - 69) / 12)⟩
          0 (init 48000 44100) ⟨2, fun _ _ => 0⟩ 0 1)
        ⟨2, fun _ _ => 0⟩ 0 528).1.assignedNote = none
      ∧ (528 : ℝ) < 2 / 10 * 48000 := by
  obtain ⟨hd, ht, _⟩ := releasedVoice_state (R := ℝ)
    ⟨Real.sin, Real.pi, fun n => 440 * (2 : ℝ) ^ (((n : ℝ) - 69) / 12)⟩
    (by positivity) Real.pi_ne_zero 0 (init 48000 44100) (by norm_num [init])
    ⟨2, fun _ _ => 0⟩ 0 1
  refine ⟨?_, by norm_num⟩
  exact (tailOff_frees _ _ ⟨2, fun _ _ => 0⟩ 0 0 528 hd ht (by omega) (by omega)).1

/-- C10 fails on the code: a note started and released with a tail-off is rendered
into samples 600..1199 of a buffer holding 1 everywhere; the tail-off ends at the
528th sample, the envelope is then applied from position 0 on, and sample 0 of
channel 0, which lies outside the rendered span, becomes 0. -/
theorem renderNextBlock_writes_outside_span :
    (AudioBuffer.mk 2 fun _ _ => (1 : ℝ)).data 0 0 = 1
      ∧ (renderNextBlock ⟨Real.sin, Real.pi, fun n => 440 * (2 : ℝ) ^ (((n : ℝ) - 69) / 12)⟩
          (stopNote 1 true
            (startVoice ⟨Real.sin, Real.pi, fun n => 440 * (2 : ℝ) ^ (((n : ℝ) - 69) / 12)⟩
              0 69 1 (init 48000 44100)))
          ⟨2, fun _ _ => 1⟩ 600 600).2.data 0 0 = 0 := by
  refine ⟨rfl, ?_⟩
  have hs := startVoice_sounding (R := ℝ)
    ⟨Real.sin, Real.pi, fun n => 440 * (2 : ℝ) ^ (((n : ℝ) - 69) / 12)⟩ 69
    (by positivity) Real.pi_ne_zero 0 1 (init 48000 44100) (by norm_num [init])
  have hd : (stopNote (1 : ℝ) true
      (startVoice ⟨Real.sin, Real.pi, fun n => 440 * (2 : ℝ) ^ (((n : ℝ) - 69) / 12)⟩
        0 69 1 (init 48000 44100))).angleDelta ≠ 0 := by
    simp only [stopNote, hs.2, if_true]
    exact hs.1
  have ht : (stopNote (1 : ℝ) true
      (startVoice ⟨Real.sin, Real.pi, fun n => 440 * (2 : ℝ) ^ (((n : ℝ) - 69) / 12)⟩
        0 69 1 (init 48000 44100))).tailOff = 1 := by
    simp only [stopNote, hs.2, if_true]
  have hq : (stopNote (1 : ℝ) true
      (startVoice ⟨Real.sin, Real.pi, fun n => 440 * (2 : ℝ) ^ (((n : ℝ) - 69) / 12)⟩
        0 69 1 (init 48000 44100))).adsr.Quiet := by
    simp [stopNote, startVoice, startNote, init, ADSR.noteOff, ADSR.noteOn, ADSR.setParameters,
      ADSR.fresh, ADSR.Quiet]
  have e : (600 : Int) = ((527 + 1 + 72 : Nat) : Int) := by norm_num
  rw [e]
  refine break_scales_front _ _ _ 600 527 72 hd (by rw [ht]; norm_num) ?_ ?_ hq (by omega)
    (by omega) 0 (by norm_num)
  · intro k _ hk
    rw [ht, one_mul]
    exact tailOff_pow_above k hk
  · rw [ht, one_mul]
    exact tailOff_pow_below

/-- C2 fails on the code: note 69 is started at velocity 1 on a 48 kHz voice and two
samples are rendered into an empty buffer.  Sample 1 receives
`sin (2π * 440 / 48000) * 0.15`, the unscaled oscillator value, and not
`sin (currentAngle + 1 * angleDelta) * level * e_1`, where `e_1` is the envelope's
amplitude at tick 1 of the call (here `2 / 4410`). -/
theorem renderNextBlock_ignores_envelope :
    (renderNextBlock ⟨Real.sin, Real.pi, fun n => 440 * (2 : ℝ) ^ (((n : ℝ) - 69) / 12)⟩
        (startVoice ⟨Real.sin, Real.pi, fun n => 440 * (2 : ℝ) ^ (((n : ℝ) - 69) / 12)⟩
          0 69 1 (init 48000 44100))
        ⟨2, fun _ _ => 0⟩ 0 2).2.data 0 1
        = Real.sin (440 / 48000 * (2 * Real.pi)) * (15 / 100)
      ∧ (renderNextBlock ⟨Real.sin, Real.pi, fun n => 440 * (2 : ℝ) ^ (((n : ℝ) - 69) / 12)⟩
        (startVoice ⟨Real.sin, Real.pi, fun n => 440 * (2 : ℝ) ^ (((n : ℝ) - 69) / 12)⟩
          0 69 1 (init 48000 44100))
        ⟨2, fun _ _ => 0⟩ 0 2).2.data 0 1
        ≠ (AudioBuffer.mk 2 fun _ _ => (0 : ℝ)).data 0 1
          + Real.sin
              ((startVoice ⟨Real.sin, Real.pi, fun n => 440 * (2 : ℝ) ^ (((n : ℝ) - 69) / 12)⟩
                  0 69 1 (init 48000 44100)).currentAngle
                + 1 * (startVoice
                  ⟨Real.sin, Real.pi, fun n => 440 * (2 : ℝ) ^ (((n : ℝ) - 69) / 12)⟩
                  0 69 1 (init 48000 44100)).angleDelta)
            * (startVoice ⟨Real.sin, Real.pi, fun n => 440 * (2 : ℝ) ^ (((n : ℝ) - 69) / 12)⟩
                0 69 1 (init 48000 44100)).level
            * (startVoice ⟨Real.sin, Real.pi, fun n => 440 * (2 : ℝ) ^ (((n : ℝ) - 69) / 12)⟩
                0 69 1 (init 48000 44100)).adsr.tickValue 1 := by
  have hs := startVoice_sounding (R := ℝ)
    ⟨Real.sin, Real.pi, fun n => 440 * (2 : ℝ) ^ (((n : ℝ) - 69) / 12)⟩ 69
    (by positivity) Real.pi_ne_zero 0 1 (init 48000 44100) (by norm_num [init])
  have hpi := Real.pi_pos
  have hsin : 0 < Real.sin (440 / 48000 * (2 * Real.pi)) :=
    Real.sin_pos_of_pos_of_lt_pi (by positivity) (by linarith)
  have hout : (renderNextBlock
      ⟨Real.sin, Real.pi, fun n => 440 * (2 : ℝ) ^ (((n : ℝ) - 69) / 12)⟩
      (startVoice ⟨Real.sin, Real.pi, fun n => 440 * (2 : ℝ) ^ (((n : ℝ) - 69) / 12)⟩
        0 69 1 (init 48000 44100))
      ⟨2, fun _ _ => 0⟩ 0 2).2.data 0 1
      = Real.sin (440 / 48000 * (2 * Real.pi)) * (15 / 100) := by
    rw [renderNextBlock_sustain _ _ _ _ _ hs.1 (by simp [hs.2])]
    have e : (2 : Int).toNat = 2 := rfl
    simp [sustainOutput, e, startVoice, startNote, init, MathEnv.twoPi]
  have htick : (startVoice
      ⟨Real.sin, Real.pi, fun n => 440 * (2 : ℝ) ^ (((n : ℝ) - 69) / 12)⟩
      0 69 1 (init 48000 44100)).adsr.tickValue 1 = 2 / 4410 := by
    simp [ADSR.tickValue, ADSR.ticks, ADSR.getNextSample, ADSR.rate, ADSR.phaseSeconds,
      startVoice, startNote, init, ADSR.noteOn, ADSR.setParameters, ADSR.fresh]
    norm_num
  have hangle : (startVoice
      ⟨Real.sin, Real.pi, fun n => 440 * (2 : ℝ) ^ (((n : ℝ) - 69) / 12)⟩
      0 69 1 (init 48000 44100)).currentAngle
      + 1 * (startVoice
      ⟨Real.sin, Real.pi, fun n => 440 * (2 : ℝ) ^ (((n : ℝ) - 69) / 12)⟩
      0 69 1 (init 48000 44100)).angleDelta = 440 / 48000 * (2 * Real.pi) := by
    simp [startVoice, startNote, init, MathEnv.twoPi]
  have hlevel : (startVoice
      ⟨Real.sin, Real.pi, fun n => 440 * (2 : ℝ) ^ (((n : ℝ) - 69) / 12)⟩
      0 69 1 (init 48000 44100)).level = 15 / 100 := by
    simp [startVoice, startNote]
  refine ⟨hout, ?_⟩
  rw [hout, htick, hangle, hlevel]
  intro h
  have h2 : Real.sin (440 / 48000 * (2 * Real.pi)) * (15 / 100) * (1 - 2 / 4410) = 0 := by
    simp only [zero_add] at h
    linarith
  have h3 : 0 < Real.sin (440 / 48000 * (2 * Real.pi)) * (15 / 100) * (1 - 2 / 4410) := by
    have : (0 : ℝ) < 1 - 2 / 4410 := by norm_num
    positivity
  linarith

end Claims

end WaivySampler
